import Mathlib

/-!
# Verification of the `kvs` log-structured key-value store

A shallow embedding of `src/kv/src/kv.rs` (and the `get` branch of
`src/kv/src/bin/kvs.rs`).  File contents are modelled as `List Char`
(serde_json never splits the escapes it emits, so character granularity is a
faithful unit of length), the file system as an association list from segment
id to content, and the `HashMap`s of the Rust code as association lists with
the no-duplicate-keys invariant that `HashMap` guarantees.  All I/O succeeds
in the model; the fallible paths of the code (decode errors, `KeyNotFound`,
the `expect` panics) are represented by an explicit result type.
-/

/-- JSON whitespace, as accepted by serde_json between tokens. -/
def isJsonWs (c : Char) : Bool :=
  c = ' ' || c = '\t' || c = '\n' || c = '\x0d'

/-- Drop leading JSON whitespace. -/
def skipWs : List Char → List Char
  | [] => []
  | c :: cs => if isJsonWs c then skipWs cs else c :: cs

/-- Value of a hexadecimal digit, as accepted in a JSON \u escape. -/
def hexVal (c : Char) : Option Nat :=
  if '0' ≤ c ∧ c ≤ '9' then some (c.toNat - '0'.toNat)
  else if 'a' ≤ c ∧ c ≤ 'f' then some (c.toNat - 'a'.toNat + 10)
  else if 'A' ≤ c ∧ c ≤ 'F' then some (c.toNat - 'A'.toNat + 10)
  else none

/-- Lower-case hex digit for a value below 16 (serde_json emits lower case). -/
def hexDigitChar (n : Nat) : Char :=
  if n < 10 then Char.ofNat ('0'.toNat + n) else Char.ofNat ('a'.toNat + n - 10)

/-- How serde_json escapes one character inside a JSON string: `"` and `\`
get a backslash escape, the control characters 0x08/0x09/0x0A/0x0C/0x0D get
their short escapes, the remaining control characters below 0x20 get a
`\u00xx` escape, and everything else is emitted verbatim. -/
def escapeChar (c : Char) : List Char :=
  if c = '\"' then ['\\', '\"']
  else if c = '\\' then ['\\', '\\']
  else if c.toNat = 8 then ['\\', 'b']
  else if c.toNat = 9 then ['\\', 't']
  else if c.toNat = 10 then ['\\', 'n']
  else if c.toNat = 12 then ['\\', 'f']
  else if c.toNat = 13 then ['\\', 'r']
  else if c.toNat < 32 then
    ['\\', 'u', '0', '0', hexDigitChar (c.toNat / 16), hexDigitChar (c.toNat % 16)]
  else [c]

/-- Escape every character of a string body. -/
def escapeString : List Char → List Char
  | [] => []
  | c :: cs => escapeChar c ++ escapeString cs

/-- serde_json encoding of a string: quote, escaped body, quote. -/
def encodeString (s : String) : List Char :=
  '\"' :: (escapeString s.data ++ ['\"'])

/-- The `Command` enum of `kv.rs`: the unit of persistence. -/
inductive Command where
  | Set (key value : String)
  | Remove (key : String)
deriving DecidableEq, Repr

/-- serde_json encoding of a `Command` (externally tagged enum, compact
format, declaration field order), exactly as `serde_json::to_writer` emits
it: `\x7b"Set":\x7b"key":K,"value":V\x7d\x7d` or
`\x7b"Remove":\x7b"key":K\x7d\x7d`. -/
def encodeCommand : Command → List Char
  | Command.Set k v =>
      '\x7b' :: (encodeString "Set" ++ ':' :: '\x7b' :: (encodeString "key" ++
        ':' :: (encodeString k ++ ',' :: (encodeString "value" ++
        ':' :: (encodeString v ++ ['\x7d', '\x7d'])))))
  | Command.Remove k =>
      '\x7b' :: (encodeString "Remove" ++ ':' :: '\x7b' :: (encodeString "key" ++
        ':' :: (encodeString k ++ ['\x7d', '\x7d'])))

/-- A segment file produced by the engine: back-to-back records. -/
def encodeAll : List Command → List Char
  | [] => []
  | c :: cs => encodeCommand c ++ encodeAll cs

/-- Parse the body of a JSON string after the opening quote, returning the
unescaped contents and the input remaining after the closing quote.  This is
the subset of serde_json string parsing sufficient for every string the
encoder can produce (surrogate pairs are rejected; serde_json itself never
emits them). -/
def parseStrAux : List Char → Option (List Char × List Char)
  | [] => none
  | c :: rest =>
    if c = '\"' then some ([], rest)
    else if c = '\\' then
      match rest with
      | [] => none
      | e :: r =>
        if e = '\"' then (parseStrAux r).map (fun p => ('\"' :: p.1, p.2))
        else if e = '\\' then (parseStrAux r).map (fun p => ('\\' :: p.1, p.2))
        else if e = '/' then (parseStrAux r).map (fun p => ('/' :: p.1, p.2))
        else if e = 'b' then (parseStrAux r).map (fun p => (Char.ofNat 8 :: p.1, p.2))
        else if e = 'f' then (parseStrAux r).map (fun p => (Char.ofNat 12 :: p.1, p.2))
        else if e = 'n' then (parseStrAux r).map (fun p => (Char.ofNat 10 :: p.1, p.2))
        else if e = 'r' then (parseStrAux r).map (fun p => (Char.ofNat 13 :: p.1, p.2))
        else if e = 't' then (parseStrAux r).map (fun p => (Char.ofNat 9 :: p.1, p.2))
        else if e = 'u' then
          match r with
          | h1 :: h2 :: h3 :: h4 :: r2 =>
            match hexVal h1, hexVal h2, hexVal h3, hexVal h4 with
            | some a, some b, some c3, some d =>
              let n := ((a * 16 + b) * 16 + c3) * 16 + d
              if n < 0xd800 then (parseStrAux r2).map (fun p => (Char.ofNat n :: p.1, p.2))
              else none
            | _, _, _, _ => none
          | _ => none
        else none
    else if c.toNat < 32 then none
    else (parseStrAux rest).map (fun p => (c :: p.1, p.2))

/-- Parse a JSON string token (expects the opening quote). -/
def parseJString (cs : List Char) : Option (List Char × List Char) :=
  match cs with
  | '\"' :: rest => parseStrAux rest
  | _ => none

/-- Parse the two fields of a `Set` variant body after its opening brace
(either field order, as serde accepts), through the closing braces. -/
def parseSetFields (cs : List Char) : Option (Command × List Char) :=
  match parseJString (skipWs cs) with
  | none => none
  | some (f1, cs1) =>
    match skipWs cs1 with
    | ':' :: cs2 =>
      match parseJString (skipWs cs2) with
      | none => none
      | some (v1, cs3) =>
        match skipWs cs3 with
        | ',' :: cs4 =>
          match parseJString (skipWs cs4) with
          | none => none
          | some (f2, cs5) =>
            match skipWs cs5 with
            | ':' :: cs6 =>
              match parseJString (skipWs cs6) with
              | none => none
              | some (v2, cs7) =>
                match skipWs cs7 with
                | '\x7d' :: cs8 =>
                  match skipWs cs8 with
                  | '\x7d' :: cs9 =>
                    if f1 = "key".data ∧ f2 = "value".data then
                      some (Command.Set (String.mk v1) (String.mk v2), cs9)
                    else if f1 = "value".data ∧ f2 = "key".data then
                      some (Command.Set (String.mk v2) (String.mk v1), cs9)
                    else none
                  | _ => none
                | _ => none
            | _ => none
        | _ => none
    | _ => none

/-- Parse the single field of a `Remove` variant body after its opening
brace, through the closing braces. -/
def parseRemoveFields (cs : List Char) : Option (Command × List Char) :=
  match parseJString (skipWs cs) with
  | none => none
  | some (f1, cs1) =>
    match skipWs cs1 with
    | ':' :: cs2 =>
      match parseJString (skipWs cs2) with
      | none => none
      | some (v1, cs3) =>
        match skipWs cs3 with
        | '\x7d' :: cs4 =>
          match skipWs cs4 with
          | '\x7d' :: cs5 =>
            if f1 = "key".data then some (Command.Remove (String.mk v1), cs5)
            else none
          | _ => none
        | _ => none
    | _ => none

/-- Decode one `Command` record from the head of the input, as
serde_json's `Deserializer` does: skip whitespace, then an externally
tagged enum object.  Returns the command and the input remaining
immediately after its final closing brace. -/
def decodeCommand (cs : List Char) : Option (Command × List Char) :=
  match skipWs cs with
  | '\x7b' :: cs1 =>
    match parseJString (skipWs cs1) with
    | none => none
    | some (tag, cs2) =>
      match skipWs cs2 with
      | ':' :: cs3 =>
        match skipWs cs3 with
        | '\x7b' :: cs4 =>
          if tag = "Set".data then parseSetFields cs4
          else if tag = "Remove".data then parseRemoveFields cs4
          else none
        | _ => none
      | _ => none
  | _ => none

example : decodeCommand (encodeCommand (Command.Set "a" "1")) =
    some (Command.Set "a" "1", []) := by decide

example : decodeCommand (encodeCommand (Command.Remove "key")) =
    some (Command.Remove "key", []) := by decide

example : decodeCommand (encodeCommand (Command.Set "a\"b\\c" "x\ny")) =
    some (Command.Set "a\"b\\c" "x\ny", []) := by decide

/-! ## Round-trip: the decoder recovers exactly what the encoder wrote -/

theorem String.mk_data_eq (s : String) : String.mk s.data = s := by
  cases s; rfl

theorem hexVal_hexDigitChar (m : Nat) (h : m < 16) :
    hexVal (hexDigitChar m) = some m := by
  interval_cases m <;> decide

theorem skipWs_cons_of (c : Char) (l : List Char) (h : isJsonWs c = false) :
    skipWs (c :: l) = c :: l := by
  simp [skipWs, h]

theorem skipWs_encodeString (s : String) (tail : List Char) :
    skipWs (encodeString s ++ tail) = encodeString s ++ tail := by
  unfold encodeString
  rw [List.cons_append]
  exact skipWs_cons_of _ _ (by decide)


theorem parseStrAux_cons_raw (c : Char) (rest : List Char)
    (h1 : ¬ c = '\"') (h2 : ¬ c = '\\') (h3 : ¬ c.toNat < 32) :
    parseStrAux (c :: rest) = (parseStrAux rest).map (fun p => (c :: p.1, p.2)) := by
  rw [parseStrAux.eq_def]
  simp [h1, h2, h3]

theorem parseStrAux_escape (c : Char) (tail : List Char) :
    parseStrAux (escapeChar c ++ tail) =
      (parseStrAux tail).map (fun p => (c :: p.1, p.2)) := by
  by_cases hq : c = '\"'
  · subst hq
    rw [(by decide : escapeChar '\"' = ['\\', '\"'])]
    rw [List.cons_append, List.cons_append, List.nil_append]
    rw [parseStrAux.eq_def]
    simp +decide
  by_cases hb : c = '\\'
  · subst hb
    rw [(by decide : escapeChar '\\' = ['\\', '\\'])]
    rw [List.cons_append, List.cons_append, List.nil_append]
    rw [parseStrAux.eq_def]
    simp +decide
  by_cases h8 : c.toNat = 8
  · have hc : c = Char.ofNat 8 := by rw [← h8, Char.ofNat_toNat]
    subst hc
    rw [(by decide : escapeChar (Char.ofNat 8) = ['\\', 'b'])]
    rw [List.cons_append, List.cons_append, List.nil_append]
    rw [parseStrAux.eq_def]
    simp +decide
  by_cases h9 : c.toNat = 9
  · have hc : c = Char.ofNat 9 := by rw [← h9, Char.ofNat_toNat]
    subst hc
    rw [(by decide : escapeChar (Char.ofNat 9) = ['\\', 't'])]
    rw [List.cons_append, List.cons_append, List.nil_append]
    rw [parseStrAux.eq_def]
    simp +decide
  by_cases h10 : c.toNat = 10
  · have hc : c = Char.ofNat 10 := by rw [← h10, Char.ofNat_toNat]
    subst hc
    rw [(by decide : escapeChar (Char.ofNat 10) = ['\\', 'n'])]
    rw [List.cons_append, List.cons_append, List.nil_append]
    rw [parseStrAux.eq_def]
    simp +decide
  by_cases h12 : c.toNat = 12
  · have hc : c = Char.ofNat 12 := by rw [← h12, Char.ofNat_toNat]
    subst hc
    rw [(by decide : escapeChar (Char.ofNat 12) = ['\\', 'f'])]
    rw [List.cons_append, List.cons_append, List.nil_append]
    rw [parseStrAux.eq_def]
    simp +decide
  by_cases h13 : c.toNat = 13
  · have hc : c = Char.ofNat 13 := by rw [← h13, Char.ofNat_toNat]
    subst hc
    rw [(by decide : escapeChar (Char.ofNat 13) = ['\\', 'r'])]
    rw [List.cons_append, List.cons_append, List.nil_append]
    rw [parseStrAux.eq_def]
    simp +decide
  by_cases hctl : c.toNat < 32
  · have hesc : escapeChar c =
        ['\\', 'u', '0', '0', hexDigitChar (c.toNat / 16), hexDigitChar (c.toNat % 16)] := by
      simp only [escapeChar]
      rw [if_neg hq, if_neg hb]
      simp [h8, h9, h10, h12, h13, hctl]
    rw [hesc]
    have hdiv : c.toNat / 16 < 16 := by omega
    have hmod : c.toNat % 16 < 16 := Nat.mod_lt _ (by norm_num)
    rw [List.cons_append, List.cons_append, List.cons_append, List.cons_append,
        List.cons_append, List.cons_append, List.nil_append]
    rw [parseStrAux.eq_def]
    simp +decide [hexVal_hexDigitChar _ hdiv, hexVal_hexDigitChar _ hmod,
      (by decide : hexVal '0' = some 0)]
    rw [show c.toNat / 16 * 16 + c.toNat % 16 = c.toNat by omega]
    rw [if_pos (by omega : c.toNat < 55296), Char.ofNat_toNat]
  · have hesc : escapeChar c = [c] := by
      simp only [escapeChar]
      rw [if_neg hq, if_neg hb]
      simp [h8, h9, h10, h12, h13, hctl]
    rw [hesc, List.cons_append, List.nil_append]
    exact parseStrAux_cons_raw c tail hq hb hctl

theorem parseStrAux_escapeString (l tail : List Char) :
    parseStrAux (escapeString l ++ ('\"' :: tail)) = some (l, tail) := by
  induction l generalizing tail with
  | nil =>
    rw [escapeString, List.nil_append, parseStrAux.eq_def]
    simp
  | cons c cs ih =>
    rw [escapeString, List.append_assoc, parseStrAux_escape, ih]
    rfl

theorem parseJString_encode (s : String) (tail : List Char) :
    parseJString (encodeString s ++ tail) = some (s.data, tail) := by
  unfold encodeString
  rw [List.cons_append, List.append_assoc, List.singleton_append]
  rw [parseJString]
  exact parseStrAux_escapeString s.data tail

theorem parseJString_cons_esc (l X : List Char) :
    parseJString ('\"' :: (escapeString l ++ '\"' :: X)) = some (l, X) := by
  rw [parseJString]
  exact parseStrAux_escapeString l X

/-- Round trip of one record with arbitrary residual input: decoding consumes
exactly the record the encoder produced and leaves the rest untouched. -/
theorem decodeCommand_encode (c : Command) (tail : List Char) :
    decodeCommand (encodeCommand c ++ tail) = some (c, tail) := by
  cases c with
  | Set k v =>
    simp only [encodeCommand, List.cons_append, List.append_assoc]
    simp +decide [decodeCommand, parseSetFields, skipWs, isJsonWs, skipWs_encodeString,
      parseJString_encode, parseJString_cons_esc, List.cons_append, List.append_assoc,
      String.mk_data_eq]
  | Remove k =>
    simp only [encodeCommand, List.cons_append, List.append_assoc]
    simp +decide [decodeCommand, parseRemoveFields, skipWs, isJsonWs, skipWs_encodeString,
      parseJString_encode, parseJString_cons_esc, List.cons_append, List.append_assoc,
      String.mk_data_eq]

theorem decodeCommand_encode_nil (c : Command) :
    decodeCommand (encodeCommand c) = some (c, []) := by
  have h := decodeCommand_encode c []
  rwa [List.append_nil] at h

theorem encodeCommand_length_pos (c : Command) : 0 < (encodeCommand c).length := by
  cases c <;> simp [encodeCommand]

theorem encodeAll_append (l1 l2 : List Command) :
    encodeAll (l1 ++ l2) = encodeAll l1 ++ encodeAll l2 := by
  induction l1 with
  | nil => rfl
  | cons c cs ih => simp [encodeAll, ih]

/-! ## Association lists: the model of `HashMap` and of the directory

`alIns` replaces the value of an existing key in place (as `HashMap::insert`
does) and appends absent keys; `alDel` removes a key (`HashMap::remove`);
`alGet` looks a key up.  The engine's maps never hold duplicate keys. -/

def alGet {α β : Type} [DecidableEq α] (k : α) : List (α × β) → Option β
  | [] => none
  | (k1, v1) :: rest => if k1 = k then some v1 else alGet k rest

def alIns {α β : Type} [DecidableEq α] (k : α) (v : β) : List (α × β) → List (α × β)
  | [] => [(k, v)]
  | (k1, v1) :: rest => if k1 = k then (k, v) :: rest else (k1, v1) :: alIns k v rest

def alDel {α β : Type} [DecidableEq α] (k : α) : List (α × β) → List (α × β)
  | [] => []
  | (k1, v1) :: rest => if k1 = k then alDel k rest else (k1, v1) :: alDel k rest

theorem alGet_ins_self {α β : Type} [DecidableEq α] (k : α) (v : β) (l : List (α × β)) :
    alGet k (alIns k v l) = some v := by
  induction l with
  | nil => simp [alIns, alGet]
  | cons p rest ih =>
    obtain ⟨k1, v1⟩ := p
    by_cases h : k1 = k
    · simp [alIns, alGet, h]
    · simp [alIns, alGet, h, ih]

theorem alGet_ins_ne {α β : Type} [DecidableEq α] (k k2 : α) (v : β) (l : List (α × β))
    (h : k ≠ k2) : alGet k2 (alIns k v l) = alGet k2 l := by
  induction l with
  | nil => simp [alIns, alGet, h]
  | cons p rest ih =>
    obtain ⟨k1, v1⟩ := p
    by_cases h1 : k1 = k
    · subst h1; simp [alIns, alGet, h]
    · simp only [alIns, if_neg h1]
      by_cases h2 : k1 = k2 <;> simp [alGet, h2, ih]

theorem alGet_del_self {α β : Type} [DecidableEq α] (k : α) (l : List (α × β)) :
    alGet k (alDel k l) = none := by
  induction l with
  | nil => simp [alDel, alGet]
  | cons p rest ih =>
    obtain ⟨k1, v1⟩ := p
    by_cases h : k1 = k
    · simp [alDel, h, ih]
    · simp [alDel, alGet, h, ih]

theorem alGet_del_ne {α β : Type} [DecidableEq α] (k k2 : α) (l : List (α × β))
    (h : k ≠ k2) : alGet k2 (alDel k l) = alGet k2 l := by
  induction l with
  | nil => simp [alDel]
  | cons p rest ih =>
    obtain ⟨k1, v1⟩ := p
    by_cases h1 : k1 = k
    · rw [alDel, if_pos h1, ih, alGet, if_neg (fun hc => h (h1.symm.trans hc))]
    · simp only [alDel, if_neg h1]
      by_cases h2 : k1 = k2 <;> simp [alGet, h2, ih]

theorem alGet_mem {α β : Type} [DecidableEq α] (k : α) (v : β) (l : List (α × β))
    (h : alGet k l = some v) : (k, v) ∈ l := by
  induction l with
  | nil => simp [alGet] at h
  | cons p rest ih =>
    obtain ⟨k1, v1⟩ := p
    by_cases h1 : k1 = k
    · subst h1
      rw [alGet, if_pos rfl] at h
      cases h
      exact List.mem_cons_self _ _
    · rw [alGet, if_neg h1] at h
      exact List.mem_cons_of_mem _ (ih h)

theorem mem_alGet {α β : Type} [DecidableEq α] (k : α) (v : β) (l : List (α × β))
    (hnd : (l.map Prod.fst).Nodup) (h : (k, v) ∈ l) : alGet k l = some v := by
  induction l with
  | nil => simp at h
  | cons p rest ih =>
    obtain ⟨k1, v1⟩ := p
    simp only [List.map_cons, List.nodup_cons] at hnd
    rcases List.mem_cons.mp h with h0 | h0
    · cases h0
      rw [alGet, if_pos rfl]
    · have hne : k1 ≠ k := by
        intro he
        subst he
        exact hnd.1 (List.mem_map_of_mem Prod.fst h0)
      rw [alGet, if_neg hne]
      exact ih hnd.2 h0

theorem alGet_isSome_mem_keys {α β : Type} [DecidableEq α] (k : α) (l : List (α × β))
    (h : (alGet k l).isSome) : k ∈ l.map Prod.fst := by
  induction l with
  | nil => simp [alGet] at h
  | cons p rest ih =>
    obtain ⟨k1, v1⟩ := p
    by_cases h1 : k1 = k
    · subst h1; simp
    · rw [alGet, if_neg h1] at h
      simp [ih h]

theorem keys_mem_alGet_isSome {α β : Type} [DecidableEq α] (k : α) (l : List (α × β))
    (h : k ∈ l.map Prod.fst) : (alGet k l).isSome := by
  induction l with
  | nil => simp at h
  | cons p rest ih =>
    obtain ⟨k1, v1⟩ := p
    by_cases h1 : k1 = k
    · subst h1; simp [alGet]
    · rw [alGet, if_neg h1]
      simp only [List.map_cons, List.mem_cons] at h
      rcases h with h | h
      · exact absurd h.symm h1
      · exact ih h

theorem alIns_keys_mem {α β : Type} [DecidableEq α] (k : α) (v : β) (l : List (α × β))
    (h : k ∈ l.map Prod.fst) : (alIns k v l).map Prod.fst = l.map Prod.fst := by
  induction l with
  | nil => simp at h
  | cons p rest ih =>
    obtain ⟨k1, v1⟩ := p
    by_cases h1 : k1 = k
    · subst h1; simp [alIns]
    · simp only [List.map_cons, List.mem_cons] at h
      rcases h with h | h
      · exact absurd h.symm h1
      · simp [alIns, if_neg h1, ih h]

theorem alIns_keys_not_mem {α β : Type} [DecidableEq α] (k : α) (v : β) (l : List (α × β))
    (h : ¬ k ∈ l.map Prod.fst) : (alIns k v l).map Prod.fst = l.map Prod.fst ++ [k] := by
  induction l with
  | nil => simp [alIns]
  | cons p rest ih =>
    obtain ⟨k1, v1⟩ := p
    simp only [List.map_cons, List.mem_cons, not_or] at h
    rw [alIns, if_neg (fun he => h.1 he.symm)]
    simp [ih h.2]

theorem alIns_nodup {α β : Type} [DecidableEq α] (k : α) (v : β) (l : List (α × β))
    (h : (l.map Prod.fst).Nodup) : ((alIns k v l).map Prod.fst).Nodup := by
  by_cases hm : k ∈ l.map Prod.fst
  · rwa [alIns_keys_mem k v l hm]
  · rw [alIns_keys_not_mem k v l hm]
    simp [List.nodup_append, h, hm]

theorem alDel_keys_sub {α β : Type} [DecidableEq α] (k : α) (l : List (α × β)) :
    ∀ x, x ∈ (alDel k l).map Prod.fst → x ∈ l.map Prod.fst := by
  induction l with
  | nil => simp [alDel]
  | cons p rest ih =>
    obtain ⟨k1, v1⟩ := p
    intro x hx
    by_cases h1 : k1 = k
    · rw [alDel, if_pos h1] at hx
      exact List.mem_cons_of_mem _ (ih x hx)
    · rw [alDel, if_neg h1] at hx
      simp only [List.map_cons, List.mem_cons] at hx ⊢
      rcases hx with hx | hx
      · exact Or.inl hx
      · exact Or.inr (ih x hx)

theorem alDel_nodup {α β : Type} [DecidableEq α] (k : α) (l : List (α × β))
    (h : (l.map Prod.fst).Nodup) : ((alDel k l).map Prod.fst).Nodup := by
  induction l with
  | nil => simp [alDel]
  | cons p rest ih =>
    obtain ⟨k1, v1⟩ := p
    simp only [List.map_cons, List.nodup_cons] at h
    by_cases h1 : k1 = k
    · rw [alDel, if_pos h1]
      exact ih h.2
    · rw [alDel, if_neg h1]
      simp only [List.map_cons, List.nodup_cons]
      exact ⟨fun hc => h.1 (alDel_keys_sub k rest _ hc), ih h.2⟩

theorem alGet_congr_ins {α β : Type} [DecidableEq α] (k : α) (v : β) (l1 l2 : List (α × β))
    (h : ∀ x, alGet x l1 = alGet x l2) :
    ∀ x, alGet x (alIns k v l1) = alGet x (alIns k v l2) := by
  intro x
  by_cases hx : k = x
  · subst hx; rw [alGet_ins_self, alGet_ins_self]
  · rw [alGet_ins_ne _ _ _ _ hx, alGet_ins_ne _ _ _ _ hx]
    exact h x

theorem alGet_congr_del {α β : Type} [DecidableEq α] (k : α) (l1 l2 : List (α × β))
    (h : ∀ x, alGet x l1 = alGet x l2) :
    ∀ x, alGet x (alDel k l1) = alGet x (alDel k l2) := by
  intro x
  by_cases hx : k = x
  · subst hx; rw [alGet_del_self, alGet_del_self]
  · rw [alGet_del_ne _ _ _ hx, alGet_del_ne _ _ _ hx]
    exact h x

/-! ## The engine: state and operations of `KvStore` -/

/-- The error enum of the crate.  Modelled from the spec: `KvError` is
declared in the crate root (`lib.rs`), which is not among the provided
sources; §7 of the specification lists the variants `Io`, `Serde`,
`KeyNotFound` and `UnexpectedCommandType`. -/
inductive KvError where
  | Io
  | Serde
  | KeyNotFound
  | UnexpectedCommandType
deriving DecidableEq, Repr

/-- Result of one engine operation: `ok`, an error propagated through
`Result`, or a panic (an `expect` that fired). -/
inductive OpResult (α : Type) where
  | ok (value : α)
  | err (e : KvError)
  | panic
deriving DecidableEq, Repr

/-- `CommandPos` of `kv.rs`: where the most recent `Set` for a key lives. -/
structure CommandPos where
  file_id : Nat
  pos : Nat
  len : Nat
deriving DecidableEq, Repr

/-- The engine state.  `files` is the directory owned by the store (segment
id ↦ file content); `readers` maps each segment id to the position of its
open `BufReaderWithPos`; `curren_writer` (the source's spelling) is the
tracked position of the active `BufWriterWithPos`, which is 0 at creation
because the writer is opened in append mode and `seek(Current(0))` reports
offset 0 there. -/
structure KvStore where
  current_id : Nat
  index : List (String × CommandPos)
  readers : List (Nat × Nat)
  curren_writer : Nat
  uncompacted : Nat
  files : List (Nat × List Char)
deriving DecidableEq, Repr

def COMPACTION_THRESHOLD : Nat := 1024 * 1024

/-- The record-decoding loop of `KvStore::recover`: starting from stream
offset `pos`, decode records until end of input (serde's stream iterator
skips whitespace and stops at end of file), updating the index and
accumulating dead bytes exactly as the source does.  `fuel` dominates the
recursion; every decoded record consumes at least one character, so
`length + 1` fuel always suffices. -/
def recoverLoop (id : Nat) : Nat → List Char → Nat →
    List (String × CommandPos) → Nat → Option (List (String × CommandPos) × Nat)
  | 0, _, _, _, _ => none
  | fuel + 1, rest, pos, index, unc =>
    if (skipWs rest).isEmpty then some (index, unc)
    else
      match decodeCommand rest with
      | none => none
      | some (cmd, rest1) =>
        let new_pos := pos + (rest.length - rest1.length)
        match cmd with
        | Command.Set key _ =>
          match alGet key index with
          | some old_cmd =>
            recoverLoop id fuel rest1 new_pos
              (alIns key ⟨id, pos, new_pos - pos⟩ index) (unc + old_cmd.len)
          | none =>
            recoverLoop id fuel rest1 new_pos
              (alIns key ⟨id, pos, new_pos - pos⟩ index) unc
        | Command.Remove key =>
          match alGet key index with
          | some old_cmd =>
            recoverLoop id fuel rest1 new_pos (alDel key index)
              (unc + old_cmd.len + (new_pos - pos))
          | none =>
            recoverLoop id fuel rest1 new_pos index (unc + (new_pos - pos))

/-- `KvStore::recover` on one segment: the reader of a freshly opened file
is at offset 0; the result is the updated index and the dead bytes found. -/
def KvStore.recover (id : Nat) (content : List Char)
    (index : List (String × CommandPos)) :
    Option (List (String × CommandPos) × Nat) :=
  recoverLoop id (content.length + 1) content 0 index 0

/-- The per-segment loop of `KvStore::open`: for each id in ascending order,
open the file (an absent file is an I/O error), run recovery, store the
reader (positioned at end of file after recovery consumed it). -/
def openFold (dir : List (Nat × List Char)) :
    List Nat → List (String × CommandPos) → List (Nat × Nat) → Nat →
    OpResult (List (String × CommandPos) × List (Nat × Nat) × Nat)
  | [], index, readers, unc => OpResult.ok (index, readers, unc)
  | id :: rest, index, readers, unc =>
    match alGet id dir with
    | none => OpResult.err KvError.Io
    | some content =>
      match KvStore.recover id content index with
      | none => OpResult.err KvError.Serde
      | some (index1, unc1) =>
        openFold dir rest index1 (alIns id content.length readers) (unc + unc1)

/-- `KvStore::open` on the model directory.  In every directory the engine
itself produces the file names are exactly `<decimal id>.log`, on which the
id scan (`generate_id`, modelled separately on raw names) yields exactly the
ids present, sorted ascending (`sort_unstable`; any ascending sort agrees on
distinct keys).  `new_log_file` then creates the new active
segment: create-if-absent keeps existing content (append mode), the fresh
reader and writer track position 0. -/
def openKv (dir : List (Nat × List Char)) : OpResult KvStore :=
  let id_list := (dir.map Prod.fst).insertionSort (· ≤ ·)
  match openFold dir id_list [] [] 0 with
  | OpResult.ok (index, readers, uncompacted) =>
    let current_id := id_list.getLast?.getD 0 + 1
    OpResult.ok
      { current_id := current_id
        index := index
        readers := alIns current_id 0 readers
        curren_writer := 0
        uncompacted := uncompacted
        files := alIns current_id ((alGet current_id dir).getD []) dir }
  | OpResult.err e => OpResult.err e
  | OpResult.panic => OpResult.panic

/-- The copy loop of `KvStore::compact`, over the index entries in map
order: look up the reader (panic if absent, as `.expect` does), seek it to
the entry unless already there, stream `len` bytes into the compaction file
(`io::copy` over a `take` copies what is available, at most `len`), and
replace the entry with its position in the compaction segment. -/
def compactLoop (cid : Nat) :
    List (String × CommandPos) → List (Nat × List Char) → List (Nat × Nat) → Nat →
    OpResult (List (String × CommandPos) × List (Nat × List Char) × List (Nat × Nat) × Nat)
  | [], files, readers, new_pos => OpResult.ok ([], files, readers, new_pos)
  | (key, cmd_pos) :: rest, files, readers, new_pos =>
    match alGet cmd_pos.file_id readers with
    | none => OpResult.panic
    | some _ =>
      match alGet cmd_pos.file_id files with
      | none => OpResult.err KvError.Io
      | some content =>
        let bytes := (content.drop cmd_pos.pos).take cmd_pos.len
        let len := bytes.length
        let readers1 := alIns cmd_pos.file_id (cmd_pos.pos + len) readers
        match alGet cid files with
        | none => OpResult.err KvError.Io
        | some cc =>
          match compactLoop cid rest (alIns cid (cc ++ bytes) files) readers1 (new_pos + len) with
          | OpResult.ok (entries, files2, readers2, np) =>
            OpResult.ok ((key, ⟨cid, new_pos, len⟩) :: entries, files2, readers2, np)
          | OpResult.err e => OpResult.err e
          | OpResult.panic => OpResult.panic

/-- Deleting the stale segments: drop the reader handle and remove the file
(`fs::remove_file` on an absent file is an I/O error). -/
def deleteStale : List Nat → List (Nat × List Char) → List (Nat × Nat) →
    Option (List (Nat × List Char) × List (Nat × Nat))
  | [], files, readers => some (files, readers)
  | id :: rest, files, readers =>
    if (alGet id files).isSome then
      deleteStale rest (alDel id files) (alDel id readers)
    else none

/-- `KvStore::compact`: reserve `compaction_id = current_id + 1` and a new
active id `current_id + 2`, create both segments (registering readers), copy
every live index entry into the compaction segment, delete every segment
with id below `compaction_id`, and reset `uncompacted`. -/
def KvStore.compact (s : KvStore) : OpResult KvStore :=
  let compaction_id := s.current_id + 1
  let current_id := s.current_id + 2
  let files1 := alIns current_id ((alGet current_id s.files).getD []) s.files
  let readers1 := alIns current_id 0 s.readers
  let files2 := alIns compaction_id ((alGet compaction_id files1).getD []) files1
  let readers2 := alIns compaction_id 0 readers1
  match compactLoop compaction_id s.index files2 readers2 0 with
  | OpResult.ok (index1, files3, readers3, _) =>
    let stale_files := (readers3.map Prod.fst).filter (fun id => id < compaction_id)
    match deleteStale stale_files files3 readers3 with
    | some (files4, readers4) =>
      OpResult.ok
        { current_id := current_id
          index := index1
          readers := readers4
          curren_writer := 0
          uncompacted := 0
          files := files4 }
    | none => OpResult.err KvError.Io
  | OpResult.err e => OpResult.err e
  | OpResult.panic => OpResult.panic

/-- `KvStore::set`: append the encoded `Set` record to the active segment
(flushing), insert the position record (adding a superseded entry's length
to `uncompacted`), and compact when `uncompacted` exceeds the threshold. -/
def KvStore.set (s : KvStore) (key value : String) : OpResult KvStore :=
  let pos := s.curren_writer
  let data := encodeCommand (Command.Set key value)
  match alGet s.current_id s.files with
  | none => OpResult.err KvError.Io
  | some content =>
    let files1 := alIns s.current_id (content ++ data) s.files
    let writer1 := pos + data.length
    let cp : CommandPos := ⟨s.current_id, pos, writer1 - pos⟩
    let s1 : KvStore :=
      match alGet key s.index with
      | some old_cmd =>
        { s with index := alIns key cp s.index, files := files1,
                 curren_writer := writer1, uncompacted := s.uncompacted + old_cmd.len }
      | none =>
        { s with index := alIns key cp s.index, files := files1,
                 curren_writer := writer1 }
    if s1.uncompacted > COMPACTION_THRESHOLD then s1.compact else OpResult.ok s1

/-- `KvStore::get`: resolve the key through the index (absent is a
successful `none`), look up the reader (panicking `expect` if missing), seek
to the record, read `len` bytes and decode them (`from_reader` requires the
remainder of the `take` to be whitespace); a record that is not a `Set` is
`UnexpectedCommandType`. -/
def KvStore.get (s : KvStore) (key : String) : OpResult (Option String × KvStore) :=
  match alGet key s.index with
  | none => OpResult.ok (none, s)
  | some cmd_pos =>
    match alGet cmd_pos.file_id s.readers with
    | none => OpResult.panic
    | some _ =>
      match alGet cmd_pos.file_id s.files with
      | none => OpResult.err KvError.Io
      | some content =>
        let bytes := (content.drop cmd_pos.pos).take cmd_pos.len
        match decodeCommand bytes with
        | none => OpResult.err KvError.Serde
        | some (cmd, rest) =>
          if (skipWs rest).isEmpty then
            match cmd with
            | Command.Set _ value =>
              OpResult.ok (some value,
                { s with readers := alIns cmd_pos.file_id (cmd_pos.pos + bytes.length) s.readers })
            | Command.Remove _ => OpResult.err KvError.UnexpectedCommandType
          else OpResult.err KvError.Serde

/-- `KvStore::remove`: fail with `KeyNotFound` when the key is absent before
touching anything; otherwise append a `Remove` record, drop the index entry
(`expect` cannot fire: presence was just checked) and count its length as
dead bytes.  No compaction check here. -/
def KvStore.remove (s : KvStore) (key : String) : OpResult KvStore :=
  if (alGet key s.index).isSome then
    let data := encodeCommand (Command.Remove key)
    match alGet s.current_id s.files with
    | none => OpResult.err KvError.Io
    | some content =>
      let files1 := alIns s.current_id (content ++ data) s.files
      let writer1 := s.curren_writer + data.length
      match alGet key s.index with
      | none => OpResult.panic
      | some old_cmd =>
        OpResult.ok
          { s with index := alDel key s.index, files := files1,
                   curren_writer := writer1, uncompacted := s.uncompacted + old_cmd.len }
  else OpResult.err KvError.KeyNotFound

/-- One public engine operation. -/
inductive Op where
  | set (key value : String)
  | remove (key : String)
  | get (key : String)
  | compact
deriving DecidableEq, Repr

def applyOp (s : KvStore) : Op → OpResult KvStore
  | Op.set k v => s.set k v
  | Op.remove k => s.remove k
  | Op.get k =>
    match s.get k with
    | OpResult.ok (_, s1) => OpResult.ok s1
    | OpResult.err e => OpResult.err e
    | OpResult.panic => OpResult.panic
  | Op.compact => s.compact

def runOps : KvStore → List Op → OpResult KvStore
  | s, [] => OpResult.ok s
  | s, op :: rest =>
    match applyOp s op with
    | OpResult.ok s1 => runOps s1 rest
    | OpResult.err e => OpResult.err e
    | OpResult.panic => OpResult.panic

/-- The pure observable of `get`: the value the engine returns for `key`,
resolved through the index and decoded from the file bytes (`none` for
absent keys and for any failing resolution). -/
def getVal (s : KvStore) (key : String) : Option String :=
  match alGet key s.index with
  | none => none
  | some cmd_pos =>
    match alGet cmd_pos.file_id s.files with
    | none => none
    | some content =>
      match decodeCommand ((content.drop cmd_pos.pos).take cmd_pos.len) with
      | some (Command.Set _ value, rest) =>
        if (skipWs rest).isEmpty then some value else none
      | _ => none

/-- A well-formed directory: the file names parse to distinct segment ids
and every file is a back-to-back sequence of encoded records, which is
exactly what the engine writes (§6 of the spec: records are concatenated
with no separators). -/
def DirOk (dir : List (Nat × List Char)) : Prop :=
  (dir.map Prod.fst).Nodup ∧
  ∀ p ∈ dir, ∃ cmds : List Command, p.2 = encodeAll cmds

/-- Engine states reachable by `open` on a well-formed directory followed by
any sequence of successful operations. -/
inductive Reachable : KvStore → Prop where
  | openStep : ∀ dir s, DirOk dir → openKv dir = OpResult.ok s → Reachable s
  | opStep : ∀ s op s1, Reachable s → applyOp s op = OpResult.ok s1 → Reachable s1

example :
    openKv [] = OpResult.ok
      { current_id := 1, index := [], readers := [(1, 0)],
        curren_writer := 0, uncompacted := 0, files := [(1, [])] } := by decide

example :
    (match openKv [] with
     | OpResult.ok s =>
       match s.set "a" "1" with
       | OpResult.ok s1 => getVal s1 "a"
       | _ => none
     | _ => none) = some "1" := by decide

/-! ## Replay: the pure index effect of recovering encoded segments -/

theorem slice_append_left (l ext : List Char) (pos len : Nat)
    (h : pos + len ≤ l.length) :
    ((l ++ ext).drop pos).take len = (l.drop pos).take len := by
  rw [List.drop_append_of_le_length (by omega)]
  rw [List.take_append_of_le_length (by simp [List.length_drop]; omega)]

theorem slice_append_right (l ext : List Char) (pos len : Nat)
    (h : l.length ≤ pos) :
    ((l ++ ext).drop pos).take len = (ext.drop (pos - l.length)).take len := by
  have : pos = l.length + (pos - l.length) := by omega
  rw [this, List.drop_append, Nat.add_sub_cancel_left]

/-- The index effect of one recovered record (`Set` inserts its position,
`Remove` deletes the key). -/
def applyCmdIdx (id pos len : Nat) (index : List (String × CommandPos)) :
    Command → List (String × CommandPos)
  | Command.Set key _ => alIns key ⟨id, pos, len⟩ index
  | Command.Remove key => alDel key index

/-- Replay of one segment's records against an index, threading the offset. -/
def replayFile (id : Nat) : List Command → Nat → List (String × CommandPos) →
    List (String × CommandPos)
  | [], _, index => index
  | c :: cs, pos, index =>
    replayFile id cs (pos + (encodeCommand c).length)
      (applyCmdIdx id pos (encodeCommand c).length index c)

/-- Replay of segments in (ascending id) order. -/
def replayAll : List (Nat × List Command) → List (String × CommandPos) →
    List (String × CommandPos)
  | [], index => index
  | (id, cmds) :: rest, index => replayAll rest (replayFile id cmds 0 index)

theorem replayFile_append_one (id : Nat) (cmds : List Command) (c : Command) :
    ∀ pos index, replayFile id (cmds ++ [c]) pos index =
      applyCmdIdx id (pos + (encodeAll cmds).length) (encodeCommand c).length
        (replayFile id cmds pos index) c := by
  induction cmds with
  | nil => intro pos index; simp [replayFile, encodeAll]
  | cons d ds ih =>
    intro pos index
    rw [List.cons_append, replayFile, ih, replayFile]
    have : pos + (encodeCommand d).length + (encodeAll ds).length =
        pos + (encodeAll (d :: ds)).length := by
      rw [encodeAll, List.length_append]; omega
    rw [this]

theorem replayAll_append_one (h : List (Nat × List Command)) (id : Nat)
    (cmds : List Command) :
    ∀ index, replayAll (h ++ [(id, cmds)]) index =
      replayFile id cmds 0 (replayAll h index) := by
  induction h with
  | nil => intro index; simp [replayAll]
  | cons p rest ih =>
    intro index
    obtain ⟨id1, cmds1⟩ := p
    rw [List.cons_append, replayAll, ih, replayAll]

theorem replayFile_nodup (id : Nat) (cmds : List Command) :
    ∀ pos index, ((index.map Prod.fst).Nodup : Prop) →
      (((replayFile id cmds pos index).map Prod.fst).Nodup : Prop) := by
  induction cmds with
  | nil => intro pos index h; exact h
  | cons c cs ih =>
    intro pos index h
    rw [replayFile]
    apply ih
    cases c with
    | Set key v => exact alIns_nodup _ _ _ h
    | Remove key => exact alDel_nodup _ _ h

theorem replayAll_nodup (h : List (Nat × List Command)) :
    ∀ index, ((index.map Prod.fst).Nodup : Prop) →
      (((replayAll h index).map Prod.fst).Nodup : Prop) := by
  induction h with
  | nil => intro index hi; exact hi
  | cons p rest ih =>
    intro index hi
    obtain ⟨id, cmds⟩ := p
    rw [replayAll]
    exact ih _ (replayFile_nodup id cmds 0 index hi)

/-- Where an entry of a replayed segment can come from: it was already in
the index, or it points at one of this segment's own records (a `Set` with
the entry's key), at the offset the replay assigned it. -/
theorem replayFile_entry_cases (id : Nat) (cmds : List Command) :
    ∀ pos index k cp, alGet k (replayFile id cmds pos index) = some cp →
      alGet k index = some cp ∨
      (cp.file_id = id ∧ pos ≤ cp.pos ∧
        cp.pos + cp.len ≤ pos + (encodeAll cmds).length ∧
        ∃ v, ((encodeAll cmds).drop (cp.pos - pos)).take cp.len =
          encodeCommand (Command.Set k v)) := by
  induction cmds with
  | nil => intro pos index k cp h; exact Or.inl h
  | cons c cs ih =>
    intro pos index k cp h
    rw [replayFile] at h
    rcases ih _ _ _ _ h with hold | hnew
    · -- the entry survived replaying the tail: look at this record's effect
      cases c with
      | Set key v =>
        by_cases hk : key = k
        · subst hk
          rw [applyCmdIdx, alGet_ins_self] at hold
          cases hold
          refine Or.inr ⟨rfl, Nat.le_refl _, ?_, v, ?_⟩
          · simp only [encodeAll, List.length_append]
            omega
          · dsimp only
            rw [Nat.sub_self, List.drop_zero, encodeAll,
              List.take_append_of_le_length (Nat.le_refl _), List.take_length]
        · rw [applyCmdIdx, alGet_ins_ne _ _ _ _ hk] at hold
          exact Or.inl hold
      | Remove key =>
        by_cases hk : key = k
        · subst hk
          rw [applyCmdIdx, alGet_del_self] at hold
          cases hold
        · rw [applyCmdIdx, alGet_del_ne _ _ _ hk] at hold
          exact Or.inl hold
    · -- the entry is one of the tail's records; shift into the whole segment
      obtain ⟨hid, hpos, hbound, v, hslice⟩ := hnew
      refine Or.inr ⟨hid, by omega, ?_, v, ?_⟩
      · rw [encodeAll, List.length_append]; omega
      · rw [encodeAll]
        rw [slice_append_right _ _ _ _ (by omega)]
        have heq : cp.pos - pos - (encodeCommand c).length =
            cp.pos - (pos + (encodeCommand c).length) := by omega
        rw [heq]
        exact hslice

theorem alGet_append {α β : Type} [DecidableEq α] (k : α) (l1 l2 : List (α × β)) :
    alGet k (l1 ++ l2) =
      match alGet k l1 with
      | some v => some v
      | none => alGet k l2 := by
  induction l1 with
  | nil => simp [alGet]
  | cons p rest ih =>
    obtain ⟨k1, v1⟩ := p
    rw [List.cons_append, alGet, alGet]
    by_cases h : k1 = k
    · rw [if_pos h, if_pos h]
    · rw [if_neg h, if_neg h]
      exact ih

/-- Lift of `replayFile_entry_cases` to a full segment list with distinct
ids: every entry of the final index points into the segment recorded in its
`file_id`. -/
theorem replayAll_entry_cases (h : List (Nat × List Command)) :
    ∀ index k cp, ((h.map Prod.fst).Nodup : Prop) →
      alGet k (replayAll h index) = some cp →
      alGet k index = some cp ∨
      ∃ cmds v, alGet cp.file_id h = some cmds ∧
        cp.pos + cp.len ≤ (encodeAll cmds).length ∧
        ((encodeAll cmds).drop cp.pos).take cp.len =
          encodeCommand (Command.Set k v) := by
  induction h with
  | nil => intro index k cp _ hg; exact Or.inl hg
  | cons p rest ih =>
    intro index k cp hnd hg
    obtain ⟨id, cmds⟩ := p
    rw [replayAll] at hg
    simp only [List.map_cons, List.nodup_cons] at hnd
    rcases ih _ _ _ hnd.2 hg with hfile | hrest
    · rcases replayFile_entry_cases id cmds 0 index k cp hfile with hold | hnew
      · exact Or.inl hold
      · obtain ⟨hid, _, hbound, v, hslice⟩ := hnew
        refine Or.inr ⟨cmds, v, ?_, by omega, ?_⟩
        · rw [hid, alGet, if_pos rfl]
        · rw [Nat.sub_zero] at hslice
          simpa using hslice
    · obtain ⟨cmds1, v, hgetrest, hbound, hslice⟩ := hrest
      refine Or.inr ⟨cmds1, v, ?_, hbound, hslice⟩
      have hidne : id ≠ cp.file_id := by
        intro he
        subst he
        exact hnd.1 (alGet_isSome_mem_keys _ _ (by rw [hgetrest]; rfl))
      rw [alGet, if_neg hidne]
      exact hgetrest

theorem alDel_eq_of_none {α β : Type} [DecidableEq α] (k : α) (l : List (α × β))
    (h : alGet k l = none) : alDel k l = l := by
  induction l with
  | nil => rfl
  | cons p rest ih =>
    obtain ⟨k1, v1⟩ := p
    by_cases h1 : k1 = k
    · rw [alGet, if_pos h1] at h
      cases h
    · rw [alGet, if_neg h1] at h
      rw [alDel, if_neg h1, ih h]

theorem encodeCommand_head (c : Command) :
    ∃ t, encodeCommand c = '\x7b' :: t := by
  cases c <;> exact ⟨_, rfl⟩

theorem skipWs_encodeCommand_ne (c : Command) (X : List Char) :
    (skipWs (encodeCommand c ++ X)).isEmpty = false := by
  obtain ⟨t, ht⟩ := encodeCommand_head c
  rw [ht, List.cons_append, skipWs_cons_of _ _ (by decide)]
  rfl

/-- Recovery of a cleanly encoded segment succeeds and computes exactly the
replay of its commands (the dead-byte tally is existential: no claim needs
its value). -/
theorem recoverLoop_encodeAll (id : Nat) (cmds : List Command) :
    ∀ fuel pos index unc, (encodeAll cmds).length < fuel →
      ∃ u, recoverLoop id fuel (encodeAll cmds) pos index unc =
        some (replayFile id cmds pos index, u) := by
  induction cmds with
  | nil =>
    intro fuel pos index unc hfuel
    match fuel, hfuel with
    | f + 1, _ =>
      refine ⟨unc, ?_⟩
      rw [recoverLoop]
      simp [encodeAll, skipWs, replayFile]
  | cons c cs ih =>
    intro fuel pos index unc hfuel
    have hclen : 0 < (encodeCommand c).length := encodeCommand_length_pos c
    have hlen : (encodeAll (c :: cs)).length =
        (encodeCommand c).length + (encodeAll cs).length := by
      rw [encodeAll, List.length_append]
    match fuel, hfuel with
    | f + 1, hfuel =>
      rw [recoverLoop]
      rw [show encodeAll (c :: cs) = encodeCommand c ++ encodeAll cs from rfl]
      rw [skipWs_encodeCommand_ne c (encodeAll cs)]
      rw [decodeCommand_encode c (encodeAll cs)]
      have hsub : (encodeCommand c ++ encodeAll cs).length - (encodeAll cs).length =
          (encodeCommand c).length := by
        rw [List.length_append]; omega
      have hf : (encodeAll cs).length < f := by omega
      simp only [Bool.false_eq_true, if_false, hsub]
      cases c with
      | Set key v =>
        rw [replayFile]
        simp only [applyCmdIdx]
        have harith : pos + (encodeCommand (Command.Set key v)).length - pos =
            (encodeCommand (Command.Set key v)).length := by omega
        cases hget : alGet key index with
        | some old_cmd =>
          simp only [harith]
          exact ih f (pos + (encodeCommand (Command.Set key v)).length) _ _ hf
        | none =>
          simp only [harith]
          exact ih f (pos + (encodeCommand (Command.Set key v)).length) _ _ hf
      | Remove key =>
        rw [replayFile]
        simp only [applyCmdIdx]
        cases hget : alGet key index with
        | some old_cmd =>
          dsimp only
          exact ih f (pos + (encodeCommand (Command.Remove key)).length) _ _ hf
        | none =>
          dsimp only
          rw [alDel_eq_of_none key index hget]
          exact ih f (pos + (encodeCommand (Command.Remove key)).length) _ _ hf

theorem recover_encodeAll (id : Nat) (cmds : List Command)
    (index : List (String × CommandPos)) :
    ∃ u, KvStore.recover id (encodeAll cmds) index =
      some (replayFile id cmds 0 index, u) := by
  unfold KvStore.recover
  exact recoverLoop_encodeAll id cmds ((encodeAll cmds).length + 1) 0 index 0
    (Nat.lt_succ_self _)

/-! ## The reachable-state invariant -/

theorem alGet_ins_isSome {α β : Type} [DecidableEq α] (k id : α) (v : β)
    (l : List (α × β)) :
    (alGet id (alIns k v l)).isSome ↔ (id = k ∨ (alGet id l).isSome) := by
  by_cases h : k = id
  · subst h; simp [alGet_ins_self]
  · rw [alGet_ins_ne _ _ _ _ h]
    constructor
    · exact fun hs => Or.inr hs
    · rintro (he | hs)
      · exact absurd he.symm h
      · exact hs

/-- Ghost history of a store: the per-segment command lists behind the
current files, ids strictly ascending, replaying (oldest first) to the live
index.  This is what recovery on reopen recomputes. -/
structure Hist (files : List (Nat × List Char)) (index : List (String × CommandPos))
    (h : List (Nat × List Command)) : Prop where
  asc : (h.map Prod.fst).Sorted (· < ·)
  dom : ∀ id, (alGet id h).isSome ↔ (alGet id files).isSome
  content : ∀ id cmds, alGet id h = some cmds → alGet id files = some (encodeAll cmds)
  rep : ∀ k, alGet k (replayAll h []) = alGet k index

/-- The invariant of every reachable engine state. -/
structure KvInv (s : KvStore) : Prop where
  inodup : (s.index.map Prod.fst).Nodup
  fnodup : (s.files.map Prod.fst).Nodup
  rnodup : (s.readers.map Prod.fst).Nodup
  rf : ∀ id, (alGet id s.readers).isSome ↔ (alGet id s.files).isSome
  ids_le : ∀ id, (alGet id s.files).isSome → id ≤ s.current_id
  cur : ∃ c, alGet s.current_id s.files = some c ∧ s.curren_writer = c.length
  hist : ∃ h, Hist s.files s.index h

/-- Every index entry of an invariant state points at a range of an existing
segment that is byte-for-byte the canonical encoding of a `Set` record for
that key. -/
theorem KvInv.canon {s : KvStore} (hI : KvInv s) (k : String) (cp : CommandPos)
    (h : alGet k s.index = some cp) :
    ∃ content v, alGet cp.file_id s.files = some content ∧
      cp.pos + cp.len ≤ content.length ∧
      (content.drop cp.pos).take cp.len = encodeCommand (Command.Set k v) := by
  obtain ⟨hh, hhist⟩ := hI.hist
  have hrep := hhist.rep k
  rw [h] at hrep
  have hnd : ((hh.map Prod.fst).Nodup : Prop) := hhist.asc.nodup
  rcases replayAll_entry_cases hh [] k cp hnd hrep with habs | hfound
  · rw [alGet] at habs
    cases habs
  · obtain ⟨cmds, v, hgh, hbound, hslice⟩ := hfound
    exact ⟨encodeAll cmds, v, hhist.content _ _ hgh, hbound, hslice⟩

theorem getVal_eq_of_slice (s : KvStore) (k : String) (cp : CommandPos)
    (content : List Char) (v : String)
    (hidx : alGet k s.index = some cp)
    (hfile : alGet cp.file_id s.files = some content)
    (hslice : (content.drop cp.pos).take cp.len = encodeCommand (Command.Set k v)) :
    getVal s k = some v := by
  simp only [getVal, hidx, hfile, hslice, decodeCommand_encode_nil]
  rfl

theorem getVal_none (s : KvStore) (k : String) (h : alGet k s.index = none) :
    getVal s k = none := by
  simp only [getVal, h]

theorem getVal_congr (s1 s : KvStore) (h1 : s1.index = s.index)
    (h2 : s1.files = s.files) (k : String) : getVal s1 k = getVal s k := by
  unfold getVal
  rw [h1, h2]

/-- In an invariant state `get` succeeds and returns exactly `getVal`; the
state changes only in the position of one reader. -/
theorem get_spec {s : KvStore} (hI : KvInv s) (k : String) :
    ∃ t, s.get k = OpResult.ok (getVal s k, t) ∧ KvInv t ∧
      (∀ k2, getVal t k2 = getVal s k2) := by
  cases hidx : alGet k s.index with
  | none =>
    refine ⟨s, ?_, hI, fun k2 => rfl⟩
    simp only [KvStore.get, getVal, hidx]
  | some cp =>
    obtain ⟨content, v, hfile, hbound, hslice⟩ := hI.canon k cp hidx
    have hrd : (alGet cp.file_id s.readers).isSome := by
      rw [hI.rf, hfile]; rfl
    obtain ⟨rpos, hrpos⟩ := Option.isSome_iff_exists.mp hrd
    have hgv : getVal s k = some v := getVal_eq_of_slice s k cp content v hidx hfile hslice
    refine
      ⟨{ s with
          readers :=
            alIns cp.file_id (cp.pos + ((content.drop cp.pos).take cp.len).length) s.readers },
        ?_, ?_, ?_⟩
    · simp only [KvStore.get, hidx, hrpos, hfile, hslice, decodeCommand_encode_nil, hgv]
      rfl
    · refine ⟨hI.inodup, hI.fnodup, alIns_nodup _ _ _ hI.rnodup, ?_, hI.ids_le, hI.cur, ?_⟩
      · intro id
        rw [alGet_ins_isSome]
        constructor
        · rintro (he | hs)
          · subst he
            rw [hfile]; rfl
          · exact (hI.rf id).mp hs
        · intro hs
          exact Or.inr ((hI.rf id).mpr hs)
      · exact hI.hist
    · intro k2
      exact getVal_congr _ s rfl rfl k2

/-- `remove` of an absent key fails with `KeyNotFound` before writing or
changing anything (the model returns no state on error; the source checks
`contains_key` before its first write). -/
theorem remove_absent (s : KvStore) (k : String) (h : alGet k s.index = none) :
    s.remove k = OpResult.err KvError.KeyNotFound := by
  unfold KvStore.remove
  rw [h]
  rfl

theorem alIns_fresh_append {α β : Type} [DecidableEq α] (k : α) (v : β)
    (l : List (α × β)) (h : ¬ k ∈ l.map Prod.fst) : alIns k v l = l ++ [(k, v)] := by
  induction l with
  | nil => rfl
  | cons p rest ih =>
    obtain ⟨k1, v1⟩ := p
    simp only [List.map_cons, List.mem_cons, not_or] at h
    rw [alIns, if_neg (fun he => h.1 he.symm), List.cons_append, ih h.2]

/-- A strictly ascending association list whose maximum key is `c`
decomposes as a prefix of strictly smaller keys followed by the entry
for `c`. -/
theorem sorted_mem_max_last {γ : Type} (h : List (Nat × γ)) (c : Nat)
    (hs : (h.map Prod.fst).Sorted (· < ·)) (hmem : c ∈ h.map Prod.fst)
    (hle : ∀ id ∈ h.map Prod.fst, id ≤ c) :
    ∃ h1 v, h = h1 ++ [(c, v)] ∧ ∀ id ∈ h1.map Prod.fst, id < c := by
  induction h with
  | nil => simp at hmem
  | cons p t ih =>
    obtain ⟨a, va⟩ := p
    simp only [List.map_cons, List.sorted_cons] at hs
    cases t with
    | nil =>
      simp only [List.map_cons, List.map_nil, List.mem_cons, List.not_mem_nil, or_false] at hmem
      subst hmem
      exact ⟨[], va, rfl, by simp⟩
    | cons q t1 =>
      have hq1 : q.1 ∈ (q :: t1).map Prod.fst := by simp
      have hat : a < c := lt_of_lt_of_le (hs.1 _ hq1) (hle _ (by simp))
      have hmem1 : c ∈ (q :: t1).map Prod.fst := by
        rcases List.mem_cons.mp hmem with he | hm
        · exact absurd hat (by simp [he])
        · exact hm
      obtain ⟨h1, v, heq, hlt⟩ := ih hs.2 hmem1
        (fun id hid => hle id (List.mem_cons_of_mem _ hid))
      refine ⟨(a, va) :: h1, v, by rw [heq, List.cons_append], ?_⟩
      intro id hid
      rcases List.mem_cons.mp hid with he | hm
      · simpa [he] using hat
      · exact hlt id hm

/-- Appending one record to the active segment extends its history by that
command, and the extended history replays to the correspondingly updated
index.  This is the write path of both `set` and `remove`. -/
theorem hist_append_record
    (files : List (Nat × List Char)) (index : List (String × CommandPos))
    (hh : List (Nat × List Command)) (current : Nat) (content : List Char) (cmd : Command)
    (hH : Hist files index hh)
    (hcontent : alGet current files = some content)
    (hle : ∀ id, (alGet id files).isSome → id ≤ current) :
    ∃ hh2, Hist (alIns current (content ++ encodeCommand cmd) files)
      (applyCmdIdx current content.length (encodeCommand cmd).length index cmd) hh2 := by
  have hmemf : (alGet current hh).isSome := (hH.dom current).mpr (by rw [hcontent]; rfl)
  have hmemk : current ∈ hh.map Prod.fst := alGet_isSome_mem_keys _ _ hmemf
  have hlek : ∀ id ∈ hh.map Prod.fst, id ≤ current := by
    intro id hid
    exact hle id ((hH.dom id).mp (keys_mem_alGet_isSome _ _ hid))
  obtain ⟨h1, cmds, heq, hlt⟩ := sorted_mem_max_last hh current hH.asc hmemk hlek
  have hh1none : alGet current h1 = none := by
    cases hg : alGet current h1 with
    | none => rfl
    | some x =>
      exact absurd (hlt current (alGet_isSome_mem_keys _ _ (by rw [hg]; rfl)))
        (lt_irrefl _)
  have hgetcur : alGet current hh = some cmds := by
    rw [heq, alGet_append, hh1none, alGet, if_pos rfl]
  have hcont2 : content = encodeAll cmds := by
    have h2 := hH.content current cmds hgetcur
    rw [hcontent] at h2
    injection h2
  have hkeys : (h1 ++ [(current, cmds ++ [cmd])]).map Prod.fst = hh.map Prod.fst := by
    rw [heq]
    simp
  refine ⟨h1 ++ [(current, cmds ++ [cmd])], ?_, ?_, ?_, ?_⟩
  · rw [hkeys]
    exact hH.asc
  · intro id
    have hiff1 : (alGet id (h1 ++ [(current, cmds ++ [cmd])])).isSome ↔
        (alGet id hh).isSome := by
      constructor
      · intro hs
        refine keys_mem_alGet_isSome _ _ ?_
        rw [← hkeys]
        exact alGet_isSome_mem_keys _ _ hs
      · intro hs
        refine keys_mem_alGet_isSome _ _ ?_
        rw [hkeys]
        exact alGet_isSome_mem_keys _ _ hs
    rw [hiff1, hH.dom id, alGet_ins_isSome]
    constructor
    · exact fun hs => Or.inr hs
    · rintro (he | hs)
      · subst he
        rw [hcontent]; rfl
      · exact hs
  · intro id cmds2 hg2
    rw [alGet_append] at hg2
    cases hg1 : alGet id h1 with
    | some c1 =>
      rw [hg1] at hg2
      cases hg2
      have hidlt : id < current := hlt id (alGet_isSome_mem_keys _ _ (by rw [hg1]; rfl))
      have hgh : alGet id hh = some cmds2 := by
        rw [heq, alGet_append, hg1]
      rw [alGet_ins_ne _ _ _ _ (by omega)]
      exact hH.content id cmds2 hgh
    | none =>
      rw [hg1] at hg2
      by_cases hid : current = id
      · subst hid
        rw [alGet, if_pos rfl] at hg2
        cases hg2
        rw [alGet_ins_self, hcont2, encodeAll_append]
        rw [show encodeAll [cmd] = encodeCommand cmd ++ [] from rfl, List.append_nil]
      · rw [alGet, if_neg hid] at hg2
        cases hg2
  · have e1 : replayAll (h1 ++ [(current, cmds ++ [cmd])]) [] =
        applyCmdIdx current content.length (encodeCommand cmd).length
          (replayAll hh []) cmd := by
      rw [replayAll_append_one, replayFile_append_one, heq, replayAll_append_one]
      rw [Nat.zero_add, hcont2]
    intro k2
    rw [e1]
    cases cmd with
    | Set key v =>
      simp only [applyCmdIdx]
      exact alGet_congr_ins _ _ _ _ hH.rep k2
    | Remove key =>
      simp only [applyCmdIdx]
      exact alGet_congr_del _ _ _ hH.rep k2

/-! ## Compaction -/

/-- The index entries the compaction loop produces: one per live pair,
pointing consecutively into the compaction segment. -/
def buildEntries (cid : Nat) : Nat → List (String × String) → List (String × CommandPos)
  | _, [] => []
  | p, (k, v) :: rest =>
    (k, ⟨cid, p, (encodeCommand (Command.Set k v)).length⟩) ::
      buildEntries cid (p + (encodeCommand (Command.Set k v)).length) rest

theorem buildEntries_keys (cid : Nat) (pairs : List (String × String)) :
    ∀ p, (buildEntries cid p pairs).map Prod.fst = pairs.map Prod.fst := by
  induction pairs with
  | nil => intro p; rfl
  | cons q rest ih =>
    intro p
    obtain ⟨k, v⟩ := q
    rw [buildEntries, List.map_cons, List.map_cons, ih]

/-- Every produced entry points at the canonical encoding of a `Set` record
for its own key and for the value assigned to it. -/
theorem buildEntries_canon (cid : Nat) (pairs : List (String × String)) :
    ∀ p k cp, alGet k (buildEntries cid p pairs) = some cp →
      ∃ v, (k, v) ∈ pairs ∧ cp.file_id = cid ∧ p ≤ cp.pos ∧
        cp.pos + cp.len ≤ p + (encodeAll (pairs.map fun q => Command.Set q.1 q.2)).length ∧
        ((encodeAll (pairs.map fun q => Command.Set q.1 q.2)).drop (cp.pos - p)).take cp.len
          = encodeCommand (Command.Set k v) := by
  induction pairs with
  | nil =>
    intro p k cp h
    rw [buildEntries, alGet] at h
    cases h
  | cons q rest ih =>
    intro p k cp h
    obtain ⟨k1, v1⟩ := q
    rw [buildEntries, alGet] at h
    by_cases hk : k1 = k
    · rw [if_pos hk] at h
      cases h
      subst hk
      refine ⟨v1, List.mem_cons_self _ _, rfl, Nat.le_refl _, ?_, ?_⟩
      · simp only [List.map_cons, encodeAll, List.length_append]
        omega
      · simp only [List.map_cons, encodeAll, Nat.sub_self, List.drop_zero]
        rw [List.take_append_of_le_length (Nat.le_refl _), List.take_length]
    · rw [if_neg hk] at h
      obtain ⟨v, hmem, hfid, hple, hbound, hslice⟩ := ih (p + _) k cp h
      refine ⟨v, List.mem_cons_of_mem _ hmem, hfid, by omega, ?_, ?_⟩
      · simp only [List.map_cons, encodeAll, List.length_append]
        omega
      · simp only [List.map_cons, encodeAll]
        rw [slice_append_right _ _ _ _ (by omega)]
        have heq : cp.pos - p - (encodeCommand (Command.Set k1 v1)).length =
            cp.pos - (p + (encodeCommand (Command.Set k1 v1)).length) := by omega
        rw [heq]
        exact hslice

/-- Replaying the compaction segment (all `Set`s, distinct keys) from an
empty index yields exactly the entries the loop wrote. -/
theorem replayFile_sets_buildEntries (cid : Nat) :
    ∀ (pairs : List (String × String)) (p : Nat) (acc : List (String × CommandPos)),
      (pairs.map Prod.fst).Nodup →
      (∀ q ∈ pairs, ¬ q.1 ∈ acc.map Prod.fst) →
      replayFile cid (pairs.map fun q => Command.Set q.1 q.2) p acc =
        acc ++ buildEntries cid p pairs := by
  intro pairs
  induction pairs with
  | nil => intro p acc _ _; simp [replayFile, buildEntries]
  | cons q rest ih =>
    intro p acc hnd hdisj
    obtain ⟨k1, v1⟩ := q
    simp only [List.map_cons, List.nodup_cons] at hnd
    rw [List.map_cons, replayFile, buildEntries]
    simp only [applyCmdIdx]
    rw [alIns_fresh_append _ _ _ (hdisj (k1, v1) (List.mem_cons_self _ _))]
    rw [ih _ _ hnd.2 ?_]
    · rw [List.append_assoc, List.singleton_append]
    · intro q2 hq2
      simp only [List.map_append, List.mem_append, List.map_cons, List.map_nil]
      rintro (hin | hin)
      · exact hdisj q2 (List.mem_cons_of_mem _ hq2) hin
      · simp only [List.mem_singleton] at hin
        exact hnd.1 (hin ▸ List.mem_map_of_mem Prod.fst hq2)

/-- What the compaction copy loop does, given that every entry it visits
satisfies the index invariant (its range is a canonically encoded `Set` in
an existing non-compaction segment) and has an open reader: it succeeds,
produces the rewritten entries, appends exactly the encodings to the
compaction file and touches no other file. -/
theorem compactLoop_spec (cid : Nat) :
    ∀ (entries : List (String × CommandPos)) (files : List (Nat × List Char))
      (readers : List (Nat × Nat)) (np : Nat) (vOf : String → String) (cc : List Char),
      (∀ q ∈ entries, q.2.file_id ≠ cid ∧ ∃ content,
          alGet q.2.file_id files = some content ∧ q.2.pos + q.2.len ≤ content.length ∧
          (content.drop q.2.pos).take q.2.len = encodeCommand (Command.Set q.1 (vOf q.1))) →
      (∀ q ∈ entries, (alGet q.2.file_id readers).isSome) →
      alGet cid files = some cc →
      ∃ files2 readers2 np2,
        compactLoop cid entries files readers np =
          OpResult.ok (buildEntries cid np (entries.map fun q => (q.1, vOf q.1)),
            files2, readers2, np2) ∧
        (∀ id, id ≠ cid → alGet id files2 = alGet id files) ∧
        alGet cid files2 =
          some (cc ++ encodeAll (entries.map fun q => Command.Set q.1 (vOf q.1))) ∧
        files2.map Prod.fst = files.map Prod.fst ∧
        readers2.map Prod.fst = readers.map Prod.fst := by
  intro entries
  induction entries with
  | nil =>
    intro files readers np vOf cc _ _ hcc
    refine ⟨files, readers, np, ?_, fun id _ => rfl, ?_, rfl, rfl⟩
    · rfl
    · rw [hcc, List.map_nil]
      rw [show encodeAll [] = [] from rfl, List.append_nil]
  | cons q rest ih =>
    intro files readers np vOf cc hentries hreaders hcc
    obtain ⟨k, cp⟩ := q
    obtain ⟨hne, content, hget, hbound, hslice⟩ := hentries (k, cp) (List.mem_cons_self _ _)
    have hrs : (alGet cp.file_id readers).isSome :=
      hreaders (k, cp) (List.mem_cons_self _ _)
    obtain ⟨rp, hrp⟩ := Option.isSome_iff_exists.mp hrs
    have hlen : ((content.drop cp.pos).take cp.len).length =
        (encodeCommand (Command.Set k (vOf k))).length := by rw [hslice]
    have hcond1 : ∀ q ∈ rest, q.2.file_id ≠ cid ∧ ∃ content2,
        alGet q.2.file_id (alIns cid (cc ++ (content.drop cp.pos).take cp.len) files) =
          some content2 ∧ q.2.pos + q.2.len ≤ content2.length ∧
        (content2.drop q.2.pos).take q.2.len = encodeCommand (Command.Set q.1 (vOf q.1)) := by
      intro q2 hq2
      obtain ⟨hne2, content2, hget2, hbound2, hslice2⟩ :=
        hentries q2 (List.mem_cons_of_mem _ hq2)
      exact ⟨hne2, content2, by
        rw [alGet_ins_ne _ _ _ _ (fun he => hne2 he.symm)]; exact hget2, hbound2, hslice2⟩
    have hcond2 : ∀ q ∈ rest, (alGet q.2.file_id
        (alIns cp.file_id (cp.pos + ((content.drop cp.pos).take cp.len).length)
          readers)).isSome := by
      intro q2 hq2
      rw [alGet_ins_isSome]
      exact Or.inr (hreaders q2 (List.mem_cons_of_mem _ hq2))
    obtain ⟨files2, readers2, np2, hok, hothers, hcid2, hfkeys, hrkeys⟩ :=
      ih (alIns cid (cc ++ (content.drop cp.pos).take cp.len) files)
        (alIns cp.file_id (cp.pos + ((content.drop cp.pos).take cp.len).length) readers)
        (np + ((content.drop cp.pos).take cp.len).length) vOf
        (cc ++ (content.drop cp.pos).take cp.len)
        hcond1 hcond2 (alGet_ins_self _ _ _)
    refine ⟨files2, readers2, np2, ?_, ?_, ?_, ?_, ?_⟩
    · rw [compactLoop]
      simp only [hrp, hget, hcc]
      rw [hok]
      simp only [List.map_cons, buildEntries, hlen]
    · intro id hid
      rw [hothers id hid, alGet_ins_ne _ _ _ _ (fun he => hid he.symm)]
    · rw [hcid2, hslice, List.map_cons]
      rw [show encodeAll (Command.Set k (vOf k) ::
        rest.map fun q => Command.Set q.1 (vOf q.1)) =
        encodeCommand (Command.Set k (vOf k)) ++
          encodeAll (rest.map fun q => Command.Set q.1 (vOf q.1)) from rfl]
      rw [List.append_assoc]
    · rw [hfkeys]
      exact alIns_keys_mem _ _ _ (alGet_isSome_mem_keys _ _ (by rw [hcc]; rfl))
    · rw [hrkeys]
      exact alIns_keys_mem _ _ _ (alGet_isSome_mem_keys _ _ (by rw [hrp]; rfl))

theorem deleteStale_spec :
    ∀ (ids : List Nat) (files : List (Nat × List Char)) (readers : List (Nat × Nat)),
      ids.Nodup → (∀ id ∈ ids, (alGet id files).isSome) →
      ∃ files4 readers4, deleteStale ids files readers = some (files4, readers4) ∧
        (∀ id, alGet id files4 = if id ∈ ids then none else alGet id files) ∧
        (∀ id, alGet id readers4 = if id ∈ ids then none else alGet id readers) ∧
        ((files.map Prod.fst).Nodup → (files4.map Prod.fst).Nodup) ∧
        ((readers.map Prod.fst).Nodup → (readers4.map Prod.fst).Nodup) := by
  intro ids
  induction ids with
  | nil =>
    intro files readers _ _
    exact ⟨files, readers, rfl, fun id => by simp, fun id => by simp,
      fun h => h, fun h => h⟩
  | cons id rest ih =>
    intro files readers hnd hin
    simp only [List.nodup_cons] at hnd
    have hids : (alGet id files).isSome := hin id (List.mem_cons_self _ _)
    have hcond : ∀ x ∈ rest, (alGet x (alDel id files)).isSome := by
      intro x hx
      have hxne : id ≠ x := fun he => hnd.1 (he ▸ hx)
      rw [alGet_del_ne _ _ _ hxne]
      exact hin x (List.mem_cons_of_mem _ hx)
    obtain ⟨files4, readers4, hdel, hf4, hr4, hfn, hrn⟩ :=
      ih (alDel id files) (alDel id readers) hnd.2 hcond
    refine ⟨files4, readers4, ?_, ?_, ?_, ?_, ?_⟩
    · rw [deleteStale, if_pos hids, hdel]
    · intro x
      rw [hf4 x]
      by_cases hx1 : x ∈ rest
      · simp [hx1]
      · by_cases hx2 : x = id
        · subst hx2
          simp [hx1, alGet_del_self]
        · rw [if_neg hx1, alGet_del_ne _ _ _ (fun he => hx2 he.symm)]
          simp [List.mem_cons, hx1, hx2]
    · intro x
      rw [hr4 x]
      by_cases hx1 : x ∈ rest
      · simp [hx1]
      · by_cases hx2 : x = id
        · subst hx2
          simp [hx1, alGet_del_self]
        · rw [if_neg hx1, alGet_del_ne _ _ _ (fun he => hx2 he.symm)]
          simp [List.mem_cons, hx1, hx2]
    · exact fun h => hfn (alDel_nodup _ _ h)
    · exact fun h => hrn (alDel_nodup _ _ h)

/-- `compact` in an invariant state: it succeeds, preserves every `get`
result, moves every index entry into the compaction segment
`current_id + 1`, deletes every strictly older segment from disk and from
`readers`, and resets `uncompacted` to 0. -/
theorem compact_spec {s : KvStore} (hI : KvInv s) :
    ∃ s1, s.compact = OpResult.ok s1 ∧ KvInv s1 ∧
      (∀ k, getVal s1 k = getVal s k) ∧
      s1.current_id = s.current_id + 2 ∧
      (∀ k cp, alGet k s1.index = some cp → cp.file_id = s.current_id + 1) ∧
      (∀ id, id < s.current_id + 1 →
        alGet id s1.files = none ∧ alGet id s1.readers = none) ∧
      s1.uncompacted = 0 ∧
      (∀ k, (alGet k s1.index).isSome ↔ (alGet k s.index).isSome) := by
  have hfresh1 : alGet (s.current_id + 1) s.files = none := by
    cases hg : alGet (s.current_id + 1) s.files with
    | none => rfl
    | some c => exact absurd (hI.ids_le _ (by rw [hg]; rfl)) (by omega)
  have hfresh2 : alGet (s.current_id + 2) s.files = none := by
    cases hg : alGet (s.current_id + 2) s.files with
    | none => rfl
    | some c => exact absurd (hI.ids_le _ (by rw [hg]; rfl)) (by omega)
  have hfreshr1 : alGet (s.current_id + 1) s.readers = none := by
    cases hg : alGet (s.current_id + 1) s.readers with
    | none => rfl
    | some c =>
      have := (hI.rf _).mp (by rw [hg]; rfl)
      rw [hfresh1] at this
      cases this
  have hfreshr2 : alGet (s.current_id + 2) s.readers = none := by
    cases hg : alGet (s.current_id + 2) s.readers with
    | none => rfl
    | some c =>
      have := (hI.rf _).mp (by rw [hg]; rfl)
      rw [hfresh2] at this
      cases this
  have hcidf1 : alGet (s.current_id + 1) (alIns (s.current_id + 2) [] s.files) = none := by
    rw [alGet_ins_ne _ _ _ _ (by omega), hfresh1]
  have hvOf : ∀ k cp, alGet k s.index = some cp → ∃ content,
      alGet cp.file_id s.files = some content ∧ cp.pos + cp.len ≤ content.length ∧
      (content.drop cp.pos).take cp.len =
        encodeCommand (Command.Set k ((getVal s k).getD "")) := by
    intro k cp h
    obtain ⟨content, v, hgf, hb, hs⟩ := hI.canon k cp h
    have hgv : getVal s k = some v := getVal_eq_of_slice s k cp content v h hgf hs
    refine ⟨content, hgf, hb, ?_⟩
    rw [hgv]
    exact hs
  have hentries : ∀ q ∈ s.index, q.2.file_id ≠ s.current_id + 1 ∧ ∃ content,
      alGet q.2.file_id (alIns (s.current_id + 1) []
        (alIns (s.current_id + 2) [] s.files)) = some content ∧
      q.2.pos + q.2.len ≤ content.length ∧
      (content.drop q.2.pos).take q.2.len =
        encodeCommand (Command.Set q.1 ((getVal s q.1).getD "")) := by
    intro q hq
    have hidx : alGet q.1 s.index = some q.2 := mem_alGet _ _ _ hI.inodup hq
    obtain ⟨content, hgf, hb, hs⟩ := hvOf q.1 q.2 hidx
    have hle : q.2.file_id ≤ s.current_id := hI.ids_le _ (by rw [hgf]; rfl)
    refine ⟨by omega, content, ?_, hb, hs⟩
    rw [alGet_ins_ne _ _ _ _ (by omega), alGet_ins_ne _ _ _ _ (by omega)]
    exact hgf
  have hreaders : ∀ q ∈ s.index, (alGet q.2.file_id
      (alIns (s.current_id + 1) 0 (alIns (s.current_id + 2) 0 s.readers))).isSome := by
    intro q hq
    have hidx : alGet q.1 s.index = some q.2 := mem_alGet _ _ _ hI.inodup hq
    obtain ⟨content, hgf, _, _⟩ := hvOf q.1 q.2 hidx
    rw [alGet_ins_isSome, alGet_ins_isSome]
    exact Or.inr (Or.inr ((hI.rf _).mpr (by rw [hgf]; rfl)))
  obtain ⟨files3, readers3, np2, hok, hothers, hcid3, hfkeys, hrkeys⟩ :=
    compactLoop_spec (s.current_id + 1) s.index
      (alIns (s.current_id + 1) [] (alIns (s.current_id + 2) [] s.files))
      (alIns (s.current_id + 1) 0 (alIns (s.current_id + 2) 0 s.readers))
      0 (fun k => (getVal s k).getD "") [] hentries hreaders (alGet_ins_self _ _ _)
  have hR2nodup : ((alIns (s.current_id + 1) 0
      (alIns (s.current_id + 2) 0 s.readers)).map Prod.fst).Nodup :=
    alIns_nodup _ _ _ (alIns_nodup _ _ _ hI.rnodup)
  have hF2nodup : ((alIns (s.current_id + 1) []
      (alIns (s.current_id + 2) [] s.files)).map Prod.fst).Nodup :=
    alIns_nodup _ _ _ (alIns_nodup _ _ _ hI.fnodup)
  have hrf2 : ∀ id, (alGet id (alIns (s.current_id + 1) 0
      (alIns (s.current_id + 2) 0 s.readers))).isSome ↔
      (alGet id (alIns (s.current_id + 1) []
        (alIns (s.current_id + 2) [] s.files))).isSome := by
    intro id
    rw [alGet_ins_isSome, alGet_ins_isSome, alGet_ins_isSome, alGet_ins_isSome, hI.rf id]
  have hf3some : ∀ id, (alGet id files3).isSome ↔
      (alGet id (alIns (s.current_id + 1) []
        (alIns (s.current_id + 2) [] s.files))).isSome := by
    intro id
    by_cases h : id = s.current_id + 1
    · subst h
      rw [hcid3, alGet_ins_self]
      simp
    · rw [hothers id h]
  have hr3some : ∀ id, (alGet id readers3).isSome ↔
      (alGet id (alIns (s.current_id + 1) 0
        (alIns (s.current_id + 2) 0 s.readers))).isSome := by
    intro id
    constructor
    · intro hs
      exact keys_mem_alGet_isSome _ _ (hrkeys ▸ alGet_isSome_mem_keys _ _ hs)
    · intro hs
      refine keys_mem_alGet_isSome _ _ ?_
      rw [hrkeys]
      exact alGet_isSome_mem_keys _ _ hs
  have hr3nodup : (readers3.map Prod.fst).Nodup := by
    rw [hrkeys]; exact hR2nodup
  have hf3nodup : (files3.map Prod.fst).Nodup := by
    rw [hfkeys]; exact hF2nodup
  have hstale_nd : ((readers3.map Prod.fst).filter
      (fun id => id < s.current_id + 1)).Nodup := hr3nodup.filter _
  have hstale_mem : ∀ id, id ∈ (readers3.map Prod.fst).filter
      (fun id => id < s.current_id + 1) ↔
      ((alGet id readers3).isSome ∧ id < s.current_id + 1) := by
    intro id
    rw [List.mem_filter]
    simp only [decide_eq_true_eq]
    constructor
    · exact fun ⟨h1, h2⟩ => ⟨keys_mem_alGet_isSome _ _ h1, h2⟩
    · exact fun ⟨h1, h2⟩ => ⟨alGet_isSome_mem_keys _ _ h1, h2⟩
  have hstale_files : ∀ id ∈ (readers3.map Prod.fst).filter
      (fun id => id < s.current_id + 1), (alGet id files3).isSome := by
    intro id hid
    obtain ⟨h1, _⟩ := (hstale_mem id).mp hid
    exact (hf3some id).mpr ((hrf2 id).mp ((hr3some id).mp h1))
  obtain ⟨files4, readers4, hdel, hf4, hr4, hfn4, hrn4⟩ :=
    deleteStale_spec ((readers3.map Prod.fst).filter (fun id => id < s.current_id + 1))
      files3 readers3 hstale_nd hstale_files
  -- lookups in the final file system
  have hnotstale_cid : ¬ (s.current_id + 1) ∈ (readers3.map Prod.fst).filter
      (fun id => id < s.current_id + 1) := by
    rw [hstale_mem]
    rintro ⟨_, h⟩
    omega
  have hnotstale_cur : ¬ (s.current_id + 2) ∈ (readers3.map Prod.fst).filter
      (fun id => id < s.current_id + 1) := by
    rw [hstale_mem]
    rintro ⟨_, h⟩
    omega
  have hf4cid : alGet (s.current_id + 1) files4 = some (encodeAll
      (s.index.map fun q => Command.Set q.1 ((getVal s q.1).getD ""))) := by
    rw [hf4, if_neg hnotstale_cid, hcid3]
    rw [List.nil_append]
  have hf4cur : alGet (s.current_id + 2) files4 = some [] := by
    rw [hf4, if_neg hnotstale_cur, hothers _ (by omega),
      alGet_ins_ne _ _ _ _ (by omega), alGet_ins_self]
  have hf4other : ∀ id, id ≠ s.current_id + 1 → id ≠ s.current_id + 2 →
      alGet id files4 = none := by
    intro id h1 h2
    by_cases hst : id ∈ (readers3.map Prod.fst).filter (fun id => id < s.current_id + 1)
    · rw [hf4, if_pos hst]
    · rw [hf4, if_neg hst]
      cases hg : alGet id files3 with
      | none => rfl
      | some c =>
        have hsome : (alGet id files3).isSome := by rw [hg]; rfl
        have hin2 : (alGet id (alIns (s.current_id + 1) []
            (alIns (s.current_id + 2) [] s.files))).isSome := (hf3some id).mp hsome
        rw [alGet_ins_ne _ _ _ _ (fun he => h1 he.symm),
          alGet_ins_ne _ _ _ _ (fun he => h2 he.symm)] at hin2
        have hle : id ≤ s.current_id := hI.ids_le id hin2
        have hrsome : (alGet id readers3).isSome :=
          (hr3some id).mpr ((hrf2 id).mpr ((hf3some id).mp hsome))
        exact absurd ((hstale_mem id).mpr ⟨hrsome, by omega⟩) hst
  have hr4some : ∀ id, (alGet id readers4).isSome ↔ (alGet id files4).isSome := by
    intro id
    rw [hr4, hf4]
    by_cases hst : id ∈ (readers3.map Prod.fst).filter (fun id => id < s.current_id + 1)
    · rw [if_pos hst, if_pos hst]
      exact Iff.rfl
    · rw [if_neg hst, if_neg hst, hr3some, hrf2]
      exact (hf3some id).symm
  refine ⟨{ current_id := s.current_id + 2,
            index := buildEntries (s.current_id + 1) 0
              (s.index.map fun q => (q.1, (getVal s q.1).getD "")),
            readers := readers4,
            curren_writer := 0,
            uncompacted := 0,
            files := files4 }, ?_, ?_, ?_, ?_, ?_, ?_, ?_, ?_⟩
  · -- the computation itself
    unfold KvStore.compact
    simp only [hfresh2, Option.getD_none, hcidf1]
    rw [hok]
    simp only [hdel]
  · -- the invariant of the compacted state
    have hbe_keys : (buildEntries (s.current_id + 1) 0
        (s.index.map fun q => (q.1, (getVal s q.1).getD ""))).map Prod.fst =
        s.index.map Prod.fst := by
      rw [buildEntries_keys]
      simp
    refine ⟨?_, hfn4 hf3nodup, hrn4 hr3nodup, hr4some, ?_, ⟨[], hf4cur, rfl⟩, ?_⟩
    · rw [hbe_keys]
      exact hI.inodup
    · intro id hsome
      dsimp only at hsome ⊢
      by_cases h1 : id = s.current_id + 1
      · omega
      · by_cases h2 : id = s.current_id + 2
        · omega
        · rw [hf4other id h1 h2] at hsome
          cases hsome
    · refine ⟨[(s.current_id + 1,
          s.index.map fun q => Command.Set q.1 ((getVal s q.1).getD "")),
          (s.current_id + 2, [])], ?_, ?_, ?_, ?_⟩
      · simp only [List.map_cons, List.map_nil]
        refine List.sorted_cons.mpr ⟨?_, List.sorted_singleton _⟩
        intro b hb
        simp only [List.mem_singleton] at hb
        omega
      · intro id
        rw [alGet, alGet]
        by_cases h1 : s.current_id + 1 = id
        · rw [if_pos h1, ← h1, hf4cid]
          exact ⟨fun _ => rfl, fun _ => rfl⟩
        · rw [if_neg h1]
          by_cases h2 : s.current_id + 2 = id
          · rw [if_pos h2, ← h2, hf4cur]
            exact ⟨fun _ => rfl, fun _ => rfl⟩
          · rw [if_neg h2, alGet,
              hf4other id (fun he => h1 he.symm) (fun he => h2 he.symm)]
            exact Iff.rfl
      · intro id cmds hgid
        rw [alGet, alGet] at hgid
        by_cases h1 : s.current_id + 1 = id
        · rw [if_pos h1] at hgid
          cases hgid
          rw [← h1, hf4cid]
        · rw [if_neg h1] at hgid
          by_cases h2 : s.current_id + 2 = id
          · rw [if_pos h2] at hgid
            cases hgid
            rw [← h2, hf4cur]
            rfl
          · rw [if_neg h2, alGet] at hgid
            cases hgid
      · have hpnodup : ((s.index.map fun q => (q.1, (getVal s q.1).getD "")).map
            Prod.fst).Nodup := by
          rw [show (s.index.map fun q => (q.1, (getVal s q.1).getD "")).map Prod.fst =
            s.index.map Prod.fst by simp]
          exact hI.inodup
        have hrep : replayAll [(s.current_id + 1,
            s.index.map fun q => Command.Set q.1 ((getVal s q.1).getD "")),
            (s.current_id + 2, [])] [] =
            buildEntries (s.current_id + 1) 0
              (s.index.map fun q => (q.1, (getVal s q.1).getD "")) := by
          rw [replayAll, replayAll, replayAll]
          rw [show replayFile (s.current_id + 2) [] 0 = fun x => x from rfl]
          rw [show (s.index.map fun q => Command.Set q.1 ((getVal s q.1).getD "")) =
            ((s.index.map fun q => (q.1, (getVal s q.1).getD "")).map
              fun q => Command.Set q.1 q.2) by simp]
          rw [replayFile_sets_buildEntries (s.current_id + 1) _ 0 [] hpnodup (by simp)]
          rw [List.nil_append]
        intro k2
        rw [hrep]
  · -- gets are preserved
    intro k
    cases hik : alGet k s.index with
    | none =>
      have hnone : alGet k (buildEntries (s.current_id + 1) 0
          (s.index.map fun q => (q.1, (getVal s q.1).getD ""))) = none := by
        cases hg : alGet k (buildEntries (s.current_id + 1) 0
            (s.index.map fun q => (q.1, (getVal s q.1).getD ""))) with
        | none => rfl
        | some cp2 =>
          have hmem := alGet_isSome_mem_keys _ _ (by rw [hg]; rfl)
          rw [buildEntries_keys] at hmem
          rw [show (s.index.map fun q => (q.1, (getVal s q.1).getD "")).map Prod.fst =
            s.index.map Prod.fst by simp] at hmem
          have := keys_mem_alGet_isSome _ _ hmem
          rw [hik] at this
          cases this
      rw [getVal_none _ k hnone, getVal_none s k hik]
    | some cp =>
      have hsome1 : (alGet k (buildEntries (s.current_id + 1) 0
          (s.index.map fun q => (q.1, (getVal s q.1).getD "")))).isSome := by
        refine keys_mem_alGet_isSome _ _ ?_
        rw [buildEntries_keys]
        rw [show (s.index.map fun q => (q.1, (getVal s q.1).getD "")).map Prod.fst =
          s.index.map Prod.fst by simp]
        exact alGet_isSome_mem_keys _ _ (by rw [hik]; rfl)
      obtain ⟨cp2, hcp2⟩ := Option.isSome_iff_exists.mp hsome1
      obtain ⟨v2, hmem2, hfid2, _, hbound2, hslice2⟩ :=
        buildEntries_canon (s.current_id + 1) _ 0 k cp2 hcp2
      obtain ⟨q, hq, heq⟩ := List.mem_map.mp hmem2
      have hv2 : v2 = (getVal s k).getD "" := by
        have h1 : q.1 = k := congrArg Prod.fst heq
        have h2 : (getVal s q.1).getD "" = v2 := congrArg Prod.snd heq
        rw [← h2, h1]
      obtain ⟨content, hgf, hb, hs⟩ := hvOf k cp hik
      have hgvs : getVal s k = some ((getVal s k).getD "") :=
        getVal_eq_of_slice s k cp content _ hik hgf hs
      rw [hgvs]
      refine getVal_eq_of_slice _ k cp2
        (encodeAll (s.index.map fun q => Command.Set q.1 ((getVal s q.1).getD "")))
        ((getVal s k).getD "") hcp2 ?_ ?_
      · rw [hfid2]
        exact hf4cid
      · rw [Nat.sub_zero] at hslice2
        rw [show (s.index.map fun q => Command.Set q.1 ((getVal s q.1).getD "")) =
          ((s.index.map fun q => (q.1, (getVal s q.1).getD "")).map
            fun q => Command.Set q.1 q.2) by simp]
        rw [hslice2, hv2]
  · rfl
  · -- every entry points into the compaction segment
    intro k cp hg
    obtain ⟨v2, _, hfid2, _, _, _⟩ :=
      buildEntries_canon (s.current_id + 1) _ 0 k cp hg
    exact hfid2
  · -- everything older is gone from disk and readers
    intro id hid
    have h1 : id ≠ s.current_id + 1 := by omega
    have h2 : id ≠ s.current_id + 2 := by omega
    have hfnone := hf4other id h1 h2
    refine ⟨hfnone, ?_⟩
    have := hr4some id
    rw [hfnone] at this
    cases hg : alGet id readers4 with
    | none => rfl
    | some x =>
      rw [hg] at this
      exact absurd (this.mp rfl) (by simp)
  · rfl
  · -- the index keys are unchanged
    intro k
    constructor
    · intro hs
      refine keys_mem_alGet_isSome _ _ ?_
      have hmem := alGet_isSome_mem_keys _ _ hs
      rw [buildEntries_keys] at hmem
      rw [show (s.index.map fun q => (q.1, (getVal s q.1).getD "")).map Prod.fst =
        s.index.map Prod.fst by simp] at hmem
      exact hmem
    · intro hs
      refine keys_mem_alGet_isSome _ _ ?_
      rw [buildEntries_keys]
      rw [show (s.index.map fun q => (q.1, (getVal s q.1).getD "")).map Prod.fst =
        s.index.map Prod.fst by simp]
      exact alGet_isSome_mem_keys _ _ hs

/-! ## The write paths: `set` and `remove` -/

/-- Appending to the active segment does not disturb the `get` result of any
key whose index entry is unchanged: entries into other segments see the same
file, entries into the active segment see a strict extension. -/
theorem getVal_pres_append (s t : KvStore) (hI : KvInv s) (content ext : List Char)
    (hcontent : alGet s.current_id s.files = some content)
    (hfiles : t.files = alIns s.current_id (content ++ ext) s.files)
    (k2 : String) (hidx : alGet k2 t.index = alGet k2 s.index) :
    getVal t k2 = getVal s k2 := by
  cases hg : alGet k2 s.index with
  | none =>
    rw [getVal_none t k2 (by rw [hidx, hg]), getVal_none s k2 hg]
  | some cp2 =>
    obtain ⟨c2, v2, hgf2, hb2, hs2⟩ := hI.canon k2 cp2 hg
    have hsx : getVal s k2 = some v2 := getVal_eq_of_slice s k2 cp2 c2 v2 hg hgf2 hs2
    by_cases hfid : cp2.file_id = s.current_id
    · have hceq : c2 = content := by
        rw [hfid, hcontent] at hgf2
        injection hgf2 with h
        exact h.symm
      subst hceq
      have hslice2 : ((c2 ++ ext).drop cp2.pos).take cp2.len =
          encodeCommand (Command.Set k2 v2) := by
        rw [slice_append_left _ _ _ _ hb2]
        exact hs2
      have htx : getVal t k2 = some v2 :=
        getVal_eq_of_slice t k2 cp2 (c2 ++ ext) v2 (by rw [hidx, hg])
          (by rw [hfiles, hfid, alGet_ins_self]) hslice2
      rw [htx, hsx]
    · have htx : getVal t k2 = some v2 :=
        getVal_eq_of_slice t k2 cp2 c2 v2 (by rw [hidx, hg])
          (by rw [hfiles, alGet_ins_ne _ _ _ _ (fun he => hfid he.symm)]; exact hgf2) hs2
      rw [htx, hsx]

/-- The state `set` builds before its compaction check (any dead-byte
count): the invariant holds, the written key now reads back as the written
value, and every other key reads as before. -/
theorem set_mid_spec {s : KvStore} (hI : KvInv s) (k v : String) (t : KvStore)
    (content : List Char)
    (hcontent : alGet s.current_id s.files = some content)
    (hwpos : s.curren_writer = content.length)
    (hti : t.index = alIns k ⟨s.current_id, s.curren_writer,
        s.curren_writer + (encodeCommand (Command.Set k v)).length - s.curren_writer⟩ s.index)
    (htf : t.files = alIns s.current_id (content ++ encodeCommand (Command.Set k v)) s.files)
    (htw : t.curren_writer = s.curren_writer + (encodeCommand (Command.Set k v)).length)
    (htc : t.current_id = s.current_id)
    (htr : t.readers = s.readers) :
    KvInv t ∧ getVal t k = some v ∧ (∀ k2, k2 ≠ k → getVal t k2 = getVal s k2) := by
  have hti2 : t.index = alIns k ⟨s.current_id, content.length,
      (encodeCommand (Command.Set k v)).length⟩ s.index := by
    rw [hti, hwpos, Nat.add_sub_cancel_left]
  refine ⟨⟨?_, ?_, ?_, ?_, ?_, ?_, ?_⟩, ?_, ?_⟩
  · rw [hti]
    exact alIns_nodup _ _ _ hI.inodup
  · rw [htf]
    exact alIns_nodup _ _ _ hI.fnodup
  · rw [htr]
    exact hI.rnodup
  · intro id
    rw [htr, htf, alGet_ins_isSome]
    constructor
    · exact fun hs => Or.inr ((hI.rf id).mp hs)
    · rintro (he | hs)
      · subst he
        exact (hI.rf _).mpr (by rw [hcontent]; rfl)
      · exact (hI.rf id).mpr hs
  · intro id hs
    rw [htc]
    rw [htf, alGet_ins_isSome] at hs
    rcases hs with he | hs
    · omega
    · exact hI.ids_le id hs
  · refine ⟨content ++ encodeCommand (Command.Set k v), ?_, ?_⟩
    · rw [htf, htc, alGet_ins_self]
    · rw [htw, hwpos, List.length_append]
  · obtain ⟨hh, hH⟩ := hI.hist
    obtain ⟨hh2, hH2⟩ := hist_append_record s.files s.index hh s.current_id content
      (Command.Set k v) hH hcontent hI.ids_le
    simp only [applyCmdIdx] at hH2
    rw [htf, hti2]
    exact ⟨hh2, hH2⟩
  · refine getVal_eq_of_slice t k
      ⟨s.current_id, content.length, (encodeCommand (Command.Set k v)).length⟩
      (content ++ encodeCommand (Command.Set k v)) v ?_ ?_ ?_
    · rw [hti2, alGet_ins_self]
    · rw [htf, alGet_ins_self]
    · rw [List.drop_left, List.take_length]
  · intro k2 hk2
    refine getVal_pres_append s t hI content (encodeCommand (Command.Set k v))
      hcontent htf k2 ?_
    rw [hti, alGet_ins_ne _ _ _ _ (fun he => hk2 he.symm)]

/-- `set` in an invariant state: it succeeds (compacting if the threshold is
crossed), the key reads back as the written value, other keys unchanged. -/
theorem set_spec {s : KvStore} (hI : KvInv s) (k v : String) :
    ∃ s1, s.set k v = OpResult.ok s1 ∧ KvInv s1 ∧ getVal s1 k = some v ∧
      (∀ k2, k2 ≠ k → getVal s1 k2 = getVal s k2) := by
  obtain ⟨content, hcontent, hwpos⟩ := hI.cur
  cases hgk : alGet k s.index with
  | some old_cmd =>
    obtain ⟨hImid, hgvk, hpres⟩ := set_mid_spec hI k v
      { s with
          index := alIns k ⟨s.current_id, s.curren_writer,
            s.curren_writer + (encodeCommand (Command.Set k v)).length - s.curren_writer⟩
            s.index,
          files := alIns s.current_id (content ++ encodeCommand (Command.Set k v)) s.files,
          curren_writer := s.curren_writer + (encodeCommand (Command.Set k v)).length,
          uncompacted := s.uncompacted + old_cmd.len }
      content hcontent hwpos rfl rfl rfl rfl rfl
    by_cases hth : s.uncompacted + old_cmd.len > COMPACTION_THRESHOLD
    · obtain ⟨s2, hcok, hI2, hpres2, _⟩ := compact_spec hImid
      refine ⟨s2, ?_, hI2, ?_, ?_⟩
      · unfold KvStore.set
        simp only [hcontent, hgk]
        rw [if_pos hth]
        exact hcok
      · rw [hpres2 k, hgvk]
      · intro k2 hk2
        rw [hpres2 k2, hpres k2 hk2]
    · refine ⟨_, ?_, hImid, hgvk, hpres⟩
      unfold KvStore.set
      simp only [hcontent, hgk]
      rw [if_neg hth]
  | none =>
    obtain ⟨hImid, hgvk, hpres⟩ := set_mid_spec hI k v
      { s with
          index := alIns k ⟨s.current_id, s.curren_writer,
            s.curren_writer + (encodeCommand (Command.Set k v)).length - s.curren_writer⟩
            s.index,
          files := alIns s.current_id (content ++ encodeCommand (Command.Set k v)) s.files,
          curren_writer := s.curren_writer + (encodeCommand (Command.Set k v)).length }
      content hcontent hwpos rfl rfl rfl rfl rfl
    by_cases hth : s.uncompacted > COMPACTION_THRESHOLD
    · obtain ⟨s2, hcok, hI2, hpres2, _⟩ := compact_spec hImid
      refine ⟨s2, ?_, hI2, ?_, ?_⟩
      · unfold KvStore.set
        simp only [hcontent, hgk]
        rw [if_pos hth]
        exact hcok
      · rw [hpres2 k, hgvk]
      · intro k2 hk2
        rw [hpres2 k2, hpres k2 hk2]
    · refine ⟨_, ?_, hImid, hgvk, hpres⟩
      unfold KvStore.set
      simp only [hcontent, hgk]
      rw [if_neg hth]

/-- `remove` of a present key: it succeeds, the key reads back as absent,
other keys unchanged. -/
theorem remove_present_spec {s : KvStore} (hI : KvInv s) (k : String)
    (old_cmd : CommandPos) (hgk : alGet k s.index = some old_cmd) :
    ∃ s1, s.remove k = OpResult.ok s1 ∧ KvInv s1 ∧ getVal s1 k = none ∧
      (∀ k2, k2 ≠ k → getVal s1 k2 = getVal s k2) := by
  obtain ⟨content, hcontent, hwpos⟩ := hI.cur
  refine ⟨{ s with
      index := alDel k s.index,
      files := alIns s.current_id (content ++ encodeCommand (Command.Remove k)) s.files,
      curren_writer := s.curren_writer + (encodeCommand (Command.Remove k)).length,
      uncompacted := s.uncompacted + old_cmd.len }, ?_, ⟨?_, ?_, ?_, ?_, ?_, ?_, ?_⟩, ?_, ?_⟩
  · unfold KvStore.remove
    simp only [hgk, hcontent, Option.isSome_some, if_true]
  · exact alDel_nodup _ _ hI.inodup
  · exact alIns_nodup _ _ _ hI.fnodup
  · exact hI.rnodup
  · intro id
    rw [alGet_ins_isSome]
    constructor
    · exact fun hs => Or.inr ((hI.rf id).mp hs)
    · rintro (he | hs)
      · subst he
        exact (hI.rf _).mpr (by rw [hcontent]; rfl)
      · exact (hI.rf id).mpr hs
  · intro id hs
    rw [alGet_ins_isSome] at hs
    rcases hs with he | hs
    · subst he
      exact Nat.le_refl _
    · exact hI.ids_le id hs
  · refine ⟨content ++ encodeCommand (Command.Remove k), alGet_ins_self _ _ _, ?_⟩
    rw [hwpos, List.length_append]
  · obtain ⟨hh, hH⟩ := hI.hist
    obtain ⟨hh2, hH2⟩ := hist_append_record s.files s.index hh s.current_id content
      (Command.Remove k) hH hcontent hI.ids_le
    simp only [applyCmdIdx] at hH2
    exact ⟨hh2, hH2⟩
  · exact getVal_none _ k (alGet_del_self _ _)
  · intro k2 hk2
    refine getVal_pres_append s _ hI content (encodeCommand (Command.Remove k))
      hcontent rfl k2 ?_
    exact alGet_del_ne _ _ _ (fun he => hk2 he.symm)

/-! ## Opening a directory -/

theorem mem_le_foldr_max (l : List Nat) : ∀ x ∈ l, x ≤ l.foldr max 0 := by
  induction l with
  | nil => simp
  | cons a t ih =>
    intro x hx
    rcases List.mem_cons.mp hx with he | hm
    · subst he
      exact le_max_left _ _
    · exact le_trans (ih x hm) (le_max_right _ _)

theorem sorted_foldr_max (l : List Nat) (hs : l.Sorted (· ≤ ·)) :
    l.foldr max 0 = l.getLast?.getD 0 := by
  induction l with
  | nil => rfl
  | cons a t ih =>
    rw [List.sorted_cons] at hs
    cases t with
    | nil => simp
    | cons b t2 =>
      rw [List.getLast?_cons_cons]
      rw [show (a :: b :: t2).foldr max 0 = max a ((b :: t2).foldr max 0) from rfl]
      rw [ih hs.2]
      have hmem : (b :: t2).getLast?.getD 0 ∈ b :: t2 := by
        rw [show (b :: t2).getLast? = some ((b :: t2).getLast (by simp)) from
          List.getLast?_eq_getLast _ _]
        exact List.getLast_mem _
      exact Nat.max_eq_right (hs.1 _ hmem)

/-- The per-segment loop of `open` on a history's segments: it recovers the
replay of the history and registers one reader per segment. -/
theorem openFold_eq_replay (dir : List (Nat × List Char)) :
    ∀ (h : List (Nat × List Command)) (index : List (String × CommandPos))
      (readers : List (Nat × Nat)) (unc : Nat),
      ((h.map Prod.fst).Nodup) →
      (∀ id cmds, alGet id h = some cmds → alGet id dir = some (encodeAll cmds)) →
      ∃ readers1 unc1,
        openFold dir (h.map Prod.fst) index readers unc =
          OpResult.ok (replayAll h index, readers1, unc1) ∧
        (∀ id, (alGet id readers1).isSome ↔
          (id ∈ h.map Prod.fst ∨ (alGet id readers).isSome)) ∧
        ((readers.map Prod.fst).Nodup → (readers1.map Prod.fst).Nodup) := by
  intro h
  induction h with
  | nil =>
    intro index readers unc _ _
    exact ⟨readers, unc, rfl, fun id => by simp, fun hn => hn⟩
  | cons p rest ih =>
    intro index readers unc hnd hcont
    obtain ⟨id, cmds⟩ := p
    simp only [List.map_cons, List.nodup_cons] at hnd
    have hdget : alGet id dir = some (encodeAll cmds) :=
      hcont id cmds (by rw [alGet, if_pos rfl])
    obtain ⟨u, hrec⟩ := recover_encodeAll id cmds index
    have hcont2 : ∀ id2 cmds2, alGet id2 rest = some cmds2 →
        alGet id2 dir = some (encodeAll cmds2) := by
      intro id2 cmds2 hg2
      refine hcont id2 cmds2 ?_
      have hne : id ≠ id2 := by
        intro he
        subst he
        exact hnd.1 (alGet_isSome_mem_keys _ _ (by rw [hg2]; rfl))
      rw [alGet, if_neg hne]
      exact hg2
    obtain ⟨readers1, unc1, hfold, hsome, hnodup⟩ :=
      ih (replayFile id cmds 0 index) (alIns id (encodeAll cmds).length readers)
        (unc + u) hnd.2 hcont2
    refine ⟨readers1, unc1, ?_, ?_, ?_⟩
    · simp only [List.map_cons, openFold, hdget, hrec, hfold]
      rfl
    · intro id2
      rw [hsome id2, alGet_ins_isSome]
      simp only [List.map_cons, List.mem_cons]
      tauto
    · exact fun hn => hnodup (alIns_nodup _ _ _ hn)

/-- Build a command history for a well-formed directory over any id list. -/
theorem build_hist (dir : List (Nat × List Char)) (hdir : DirOk dir) :
    ∀ ids : List Nat, (∀ id ∈ ids, (alGet id dir).isSome) →
      ∃ h : List (Nat × List Command), h.map Prod.fst = ids ∧
        (∀ id cmds, alGet id h = some cmds → alGet id dir = some (encodeAll cmds)) := by
  intro ids
  induction ids with
  | nil => exact fun _ => ⟨[], rfl, fun id cmds h => by rw [alGet] at h; cases h⟩
  | cons id rest ih =>
    intro hin
    obtain ⟨content, hcontent⟩ := Option.isSome_iff_exists.mp
      (hin id (List.mem_cons_self _ _))
    obtain ⟨cmds, hcmds⟩ := hdir.2 (id, content) (alGet_mem _ _ _ hcontent)
    have hcmds2 : content = encodeAll cmds := hcmds
    obtain ⟨h1, hkeys, hcont⟩ := ih (fun x hx => hin x (List.mem_cons_of_mem _ hx))
    refine ⟨(id, cmds) :: h1, by rw [List.map_cons, hkeys], ?_⟩
    intro id2 cmds2 hg2
    rw [alGet] at hg2
    by_cases he : id = id2
    · rw [if_pos he] at hg2
      cases hg2
      rw [← he, hcontent, hcmds2]
    · rw [if_neg he] at hg2
      exact hcont id2 cmds2 hg2

/-- `open` on a directory that carries a strictly ascending history: it
succeeds, establishes the invariant, picks `max existing id + 1` (0 if none)
as the active id, and its index is exactly the replay of the history. -/
theorem openKv_spec (dir : List (Nat × List Char))
    (h : List (Nat × List Command))
    (hdnodup : (dir.map Prod.fst).Nodup)
    (hasc : (h.map Prod.fst).Sorted (· < ·))
    (hdom : ∀ id, (alGet id h).isSome ↔ (alGet id dir).isSome)
    (hcont : ∀ id cmds, alGet id h = some cmds → alGet id dir = some (encodeAll cmds)) :
    ∃ s0, openKv dir = OpResult.ok s0 ∧ KvInv s0 ∧
      s0.current_id = (dir.map Prod.fst).foldr max 0 + 1 ∧
      s0.index = replayAll h [] ∧
      (∀ id, (alGet id dir).isSome → alGet id s0.files = alGet id dir) := by
  have hmemiff : ∀ id, id ∈ h.map Prod.fst ↔ id ∈ dir.map Prod.fst := by
    intro id
    constructor
    · intro hm
      exact alGet_isSome_mem_keys _ _ ((hdom id).mp (keys_mem_alGet_isSome _ _ hm))
    · intro hm
      exact alGet_isSome_mem_keys _ _ ((hdom id).mpr (keys_mem_alGet_isSome _ _ hm))
  have hhnodup : (h.map Prod.fst).Nodup := hasc.nodup
  have hperm : (dir.map Prod.fst).Perm (h.map Prod.fst) := by
    refine List.perm_of_nodup_nodup_toFinset_eq hdnodup hhnodup ?_
    ext a
    simp only [List.mem_toFinset]
    exact (hmemiff a).symm
  have hsorted_le : (h.map Prod.fst).Sorted (· ≤ ·) := hasc.le_of_lt
  have hsortsorted : ((dir.map Prod.fst).insertionSort (· ≤ ·)).Sorted (· ≤ ·) :=
    List.sorted_insertionSort _ _
  have hideq : (dir.map Prod.fst).insertionSort (· ≤ ·) = h.map Prod.fst := by
    refine List.eq_of_perm_of_sorted ?_ hsortsorted hsorted_le
    exact (List.perm_insertionSort _ _).trans hperm
  have hmax : (h.map Prod.fst).getLast?.getD 0 = (dir.map Prod.fst).foldr max 0 := by
    rw [← hideq, ← sorted_foldr_max _ hsortsorted]
    exact (List.perm_insertionSort (· ≤ ·) (dir.map Prod.fst)).foldr_eq 0
  have hdirle : ∀ id, id ∈ dir.map Prod.fst →
      id ≤ (h.map Prod.fst).getLast?.getD 0 := by
    intro id hm
    rw [hmax]
    exact mem_le_foldr_max _ id hm
  have hcurfresh : alGet ((h.map Prod.fst).getLast?.getD 0 + 1) dir = none := by
    cases hg : alGet ((h.map Prod.fst).getLast?.getD 0 + 1) dir with
    | none => rfl
    | some c =>
      have := hdirle _ (alGet_isSome_mem_keys _ _ (by rw [hg]; rfl))
      omega
  obtain ⟨readers1, unc1, hfold, hr1some, hr1nodup⟩ :=
    openFold_eq_replay dir h [] [] 0 hhnodup hcont
  have hr1some2 : ∀ id, (alGet id readers1).isSome ↔ id ∈ h.map Prod.fst := by
    intro id
    rw [hr1some id]
    simp [alGet]
  refine ⟨{ current_id := (h.map Prod.fst).getLast?.getD 0 + 1,
            index := replayAll h [],
            readers := alIns ((h.map Prod.fst).getLast?.getD 0 + 1) 0 readers1,
            curren_writer := 0,
            uncompacted := unc1,
            files := alIns ((h.map Prod.fst).getLast?.getD 0 + 1) [] dir },
    ?_, ⟨?_, ?_, ?_, ?_, ?_, ?_, ?_⟩, ?_, rfl, ?_⟩
  · unfold openKv
    simp only [hideq, hfold, hcurfresh, Option.getD_none]
  · exact replayAll_nodup h [] (by simp)
  · exact alIns_nodup _ _ _ hdnodup
  · exact alIns_nodup _ _ _ (hr1nodup (by simp))
  · intro id
    rw [alGet_ins_isSome, alGet_ins_isSome, hr1some2 id]
    constructor
    · rintro (he | hm)
      · exact Or.inl he
      · exact Or.inr (keys_mem_alGet_isSome _ _ ((hmemiff id).mp hm))
    · rintro (he | hs)
      · exact Or.inl he
      · exact Or.inr ((hmemiff id).mpr (alGet_isSome_mem_keys _ _ hs))
  · intro id hs
    rw [alGet_ins_isSome] at hs
    rcases hs with he | hs
    · exact le_of_eq he
    · exact Nat.le_succ_of_le (hdirle id (alGet_isSome_mem_keys _ _ hs))
  · exact ⟨[], alGet_ins_self _ _ _, rfl⟩
  · refine ⟨h ++ [((h.map Prod.fst).getLast?.getD 0 + 1, [])], ?_, ?_, ?_, ?_⟩
    · simp only [List.map_append, List.map_cons, List.map_nil]
      rw [List.Sorted, List.pairwise_append]
      refine ⟨hasc, List.pairwise_singleton _ _, ?_⟩
      intro a ha b hb
      simp only [List.mem_singleton] at hb
      subst hb
      have := hdirle a ((hmemiff a).mp ha)
      omega
    · intro id
      rw [alGet_append, alGet_ins_isSome]
      cases hgh : alGet id h with
      | some cmds =>
        have := (hdom id).mp (by rw [hgh]; rfl)
        simp only [Option.isSome_some, true_iff]
        exact Or.inr this
      | none =>
        rw [alGet, alGet]
        by_cases he : (h.map Prod.fst).getLast?.getD 0 + 1 = id
        · rw [if_pos he]
          simp only [Option.isSome_some, true_iff]
          exact Or.inl he.symm
        · rw [if_neg he]
          constructor
          · intro hs
            exact absurd hs (by simp)
          · rintro (he2 | hs)
            · exact absurd he2.symm he
            · exact absurd ((hdom id).mpr hs) (by rw [hgh]; simp)
    · intro id cmds hg
      rw [alGet_append] at hg
      cases hgh : alGet id h with
      | some cmds1 =>
        rw [hgh] at hg
        cases hg
        have hle := hdirle id ((hmemiff id).mp
          (alGet_isSome_mem_keys _ _ (by rw [hgh]; rfl)))
        rw [alGet_ins_ne _ _ _ _ (by omega)]
        exact hcont id cmds hgh
      | none =>
        rw [hgh, alGet] at hg
        by_cases he : (h.map Prod.fst).getLast?.getD 0 + 1 = id
        · rw [if_pos he] at hg
          cases hg
          rw [← he, alGet_ins_self]
          rfl
        · rw [if_neg he, alGet] at hg
          cases hg
    · intro k2
      rw [replayAll_append_one, replayFile]
  · dsimp only
    rw [hmax]
  · intro id hs
    dsimp only
    have hle := hdirle id (alGet_isSome_mem_keys _ _ hs)
    exact alGet_ins_ne _ _ _ _ (by omega)

/-! ## Reachability -/

/-- Does this operation overwrite or delete the given key? -/
def kills (op : Op) (key : String) : Bool :=
  match op with
  | Op.set k2 _ => k2 = key
  | Op.remove k2 => k2 = key
  | _ => false

theorem applyOp_spec {s : KvStore} (hI : KvInv s) (op : Op) (s1 : KvStore)
    (h : applyOp s op = OpResult.ok s1) :
    KvInv s1 ∧ ∀ k, kills op k = false → getVal s1 k = getVal s k := by
  cases op with
  | set k2 v =>
    obtain ⟨s1', hok, hI1, _, hpres⟩ := set_spec hI k2 v
    rw [applyOp, hok] at h
    injection h with h
    subst h
    refine ⟨hI1, ?_⟩
    intro k hk
    simp only [kills, decide_eq_false_iff_not] at hk
    exact hpres k (fun he => hk he.symm)
  | remove k2 =>
    cases hgk : alGet k2 s.index with
    | none =>
      rw [applyOp, remove_absent s k2 hgk] at h
      cases h
    | some old_cmd =>
      obtain ⟨s1', hok, hI1, _, hpres⟩ := remove_present_spec hI k2 old_cmd hgk
      rw [applyOp, hok] at h
      injection h with h
      subst h
      refine ⟨hI1, ?_⟩
      intro k hk
      simp only [kills, decide_eq_false_iff_not] at hk
      exact hpres k (fun he => hk he.symm)
  | get k2 =>
    obtain ⟨t, hok, hI1, hpres⟩ := get_spec hI k2
    rw [applyOp, hok] at h
    injection h with h
    subst h
    exact ⟨hI1, fun k _ => hpres k⟩
  | compact =>
    obtain ⟨s1', hok, hI1, hpres, _⟩ := compact_spec hI
    rw [applyOp, hok] at h
    injection h with h
    subst h
    exact ⟨hI1, fun k _ => hpres k⟩

theorem runOps_spec {s : KvStore} (hI : KvInv s) (ops : List Op) :
    ∀ s1, runOps s ops = OpResult.ok s1 →
      KvInv s1 ∧ ∀ k, (∀ op ∈ ops, kills op k = false) → getVal s1 k = getVal s k := by
  induction ops generalizing s with
  | nil =>
    intro s1 h
    rw [runOps] at h
    injection h with h
    subst h
    exact ⟨hI, fun k _ => rfl⟩
  | cons op rest ih =>
    intro s1 h
    rw [runOps] at h
    cases hap : applyOp s op with
    | ok smid =>
      rw [hap] at h
      obtain ⟨hImid, hpres1⟩ := applyOp_spec hI op smid hap
      obtain ⟨hI1, hpres2⟩ := ih hImid s1 h
      refine ⟨hI1, ?_⟩
      intro k hk
      rw [hpres2 k (fun o ho => hk o (List.mem_cons_of_mem _ ho)),
        hpres1 k (hk op (List.mem_cons_self _ _))]
    | err e =>
      rw [hap] at h
      cases h
    | panic =>
      rw [hap] at h
      cases h

theorem reachable_inv {s : KvStore} (hr : Reachable s) : KvInv s := by
  induction hr with
  | openStep dir s hdir hopen =>
    have hin : ∀ id ∈ (dir.map Prod.fst).insertionSort (· ≤ ·), (alGet id dir).isSome := by
      intro id hm
      exact keys_mem_alGet_isSome _ _
        ((List.perm_insertionSort (· ≤ ·) (dir.map Prod.fst)).mem_iff.mp hm)
    obtain ⟨h, hkeys, hcont⟩ := build_hist dir hdir _ hin
    have hasc : (h.map Prod.fst).Sorted (· < ·) := by
      rw [hkeys]
      exact (List.sorted_insertionSort _ _).lt_of_le
        ((List.perm_insertionSort _ _).nodup_iff.mpr hdir.1)
    have hdom : ∀ id, (alGet id h).isSome ↔ (alGet id dir).isSome := by
      intro id
      constructor
      · intro hs
        have := alGet_isSome_mem_keys _ _ hs
        rw [hkeys] at this
        exact hin id this
      · intro hs
        refine keys_mem_alGet_isSome _ _ ?_
        rw [hkeys]
        exact (List.perm_insertionSort (· ≤ ·) (dir.map Prod.fst)).mem_iff.mpr
          (alGet_isSome_mem_keys _ _ hs)
    obtain ⟨s0, hok, hI0, _, _, _⟩ := openKv_spec dir h hdir.1 hasc hdom hcont
    rw [hopen] at hok
    injection hok with hok
    subst hok
    exact hI0
  | opStep s op s1 _ hap ih =>
    exact (applyOp_spec ih op s1 hap).1

/-- Reopening the directory of an invariant store: recovery rebuilds an
index that agrees pointwise with the live one, and every key reads the same
value as before. -/
theorem reopen_spec {s : KvStore} (hI : KvInv s) :
    ∃ s2, openKv s.files = OpResult.ok s2 ∧ KvInv s2 ∧
      (∀ k, alGet k s2.index = alGet k s.index) ∧
      (∀ k, getVal s2 k = getVal s k) := by
  obtain ⟨hh, hH⟩ := hI.hist
  obtain ⟨s2, hok, hI2, _, hidx, hfiles⟩ :=
    openKv_spec s.files hh hI.fnodup hH.asc hH.dom hH.content
  have hidx2 : ∀ k, alGet k s2.index = alGet k s.index := by
    intro k
    rw [hidx, hH.rep k]
  refine ⟨s2, hok, hI2, hidx2, ?_⟩
  intro k
  cases hg : alGet k s.index with
  | none =>
    rw [getVal_none s2 k (by rw [hidx2, hg]), getVal_none s k hg]
  | some cp =>
    obtain ⟨content, v, hgf, hb, hs⟩ := hI.canon k cp hg
    rw [getVal_eq_of_slice s k cp content v hg hgf hs]
    exact getVal_eq_of_slice s2 k cp content v (by rw [hidx2, hg])
      (by rw [hfiles _ (by rw [hgf]; rfl)]; exact hgf) hs

/-! ## `generate_id`: scanning the directory listing for segment ids -/

/-- Split a file name at its last dot: `some (before, after)`. -/
def lastDotSplit : List Char → Option (List Char × List Char)
  | [] => none
  | c :: rest =>
    match lastDotSplit rest with
    | some (before, after) => some (c :: before, after)
    | none => if c = '.' then some ([], rest) else none

/-- `Path::extension` on a bare file name: the portion after the last dot,
`none` when there is no dot or when the name begins with the only dot. -/
def extensionOf (name : List Char) : Option (List Char) :=
  match lastDotSplit name with
  | none => none
  | some (before, after) => if before = [] then none else some after

/-- `str::trim_end_matches(".log")`: repeatedly strip the suffix `.log`.
Each strip removes four characters, so `length` fuel always suffices. -/
def trimLogAux : Nat → List Char → List Char
  | 0, name => name
  | fuel + 1, name =>
    if ['.', 'l', 'o', 'g'].isSuffixOf name then
      trimLogAux fuel (name.take (name.length - 4))
    else name

def trimLog (name : List Char) : List Char := trimLogAux name.length name

/-- `str::parse::<u64>`: an optional leading `+`, then one or more ASCII
digits, rejecting values that overflow 64 bits. -/
def parseU64 (s : List Char) : Option Nat :=
  let t := match s with
    | '+' :: r => r
    | _ => s
  if t.isEmpty then none
  else if t.all (fun c => decide ('0' ≤ c) && decide (c ≤ '9')) then
    let n := t.foldl (fun a c => a * 10 + (c.toNat - 48)) 0
    if n < 2 ^ 64 then some n else none
  else none

/-- `KvStore::generate_id` over a directory listing (file name, regular-file
flag): keep regular files whose `extension()` is `log`, map the file name
through `trim_end_matches(".log")` and `parse::<u64>`, keep the successes,
and sort ascending (`sort_unstable`). -/
def KvStore.generate_id (entries : List (String × Bool)) : List Nat :=
  ((entries.filter (fun e => e.2 &&
      (extensionOf e.1.data == some ['l', 'o', 'g']))).filterMap
    (fun e => parseU64 (trimLog e.1.data))).insertionSort (· ≤ ·)

/-- The id scan as claim C7 words it: regular files whose name ends in
`.log` and whose stem -- the name with the one final `.log` removed --
parses as an unsigned decimal integer, sorted ascending. -/
def generate_id_claimC7 (entries : List (String × Bool)) : List Nat :=
  ((entries.filter (fun e => e.2 &&
      (['.', 'l', 'o', 'g'].isSuffixOf e.1.data))).filterMap
    (fun e => parseU64 (e.1.data.take (e.1.data.length - 4)))).insertionSort (· ≤ ·)

/-- The id scan with the claim amended to match the code: the stem is the
name with ALL trailing `.log` occurrences removed. -/
def generate_id_amendedC7 (entries : List (String × Bool)) : List Nat :=
  ((entries.filter (fun e => e.2 &&
      (['.', 'l', 'o', 'g'].isSuffixOf e.1.data))).filterMap
    (fun e => parseU64 (trimLog e.1.data))).insertionSort (· ≤ ·)

example : KvStore.generate_id [("3.log.log", true)] = [3] := by decide
example : generate_id_claimC7 [("3.log.log", true)] = [] := by decide
example : KvStore.generate_id [("2.log", true), ("1.log", true), ("x.log", true),
    (".log", true), ("7.log", false)] = [1, 2] := by decide

lemma lds_of_not_mem {l : List Char} (h : '.' ∉ l) : lastDotSplit l = none := by
  induction l with
  | nil => rfl
  | cons c rest ih =>
    have hc : ¬ c = '.' := fun hc => h (hc ▸ List.mem_cons_self c rest)
    have hr : '.' ∉ rest := fun hr => h (List.mem_cons_of_mem c hr)
    simp only [lastDotSplit, ih hr, if_neg hc]

lemma lds_none {l : List Char} (h : lastDotSplit l = none) : '.' ∉ l := by
  induction l with
  | nil => simp
  | cons c rest ih =>
    simp only [lastDotSplit] at h
    cases h' : lastDotSplit rest with
    | some p => rw [h'] at h; exact absurd h (by simp)
    | none =>
      rw [h'] at h
      by_cases hc : c = '.'
      · rw [if_pos hc] at h; exact absurd h (by simp)
      · intro hm
        rcases List.mem_cons.mp hm with h1 | h2
        · exact hc h1.symm
        · exact ih h' h2

lemma lds_structure {name b a : List Char} (h : lastDotSplit name = some (b, a)) :
    name = b ++ '.' :: a ∧ '.' ∉ a := by
  induction name generalizing b with
  | nil => exact absurd h (by simp [lastDotSplit])
  | cons c rest ih =>
    simp only [lastDotSplit] at h
    cases h' : lastDotSplit rest with
    | some p =>
      obtain ⟨b', a'⟩ := p
      simp only [h', Option.some_inj, Prod.mk.injEq] at h
      obtain ⟨hb, ha⟩ := h
      subst ha
      obtain ⟨h1, h2⟩ := ih h'
      subst hb
      exact ⟨by rw [List.cons_append, ← h1], h2⟩
    | none =>
      simp only [h'] at h
      by_cases hc : c = '.'
      · rw [if_pos hc] at h
        simp only [Option.some_inj, Prod.mk.injEq] at h
        obtain ⟨hb, ha⟩ := h
        subst hc ha
        rw [← hb]
        exact ⟨rfl, lds_none h'⟩
      · rw [if_neg hc] at h; exact absurd h (by simp)

lemma lds_app {a : List Char} (b : List Char) (h : '.' ∉ a) :
    lastDotSplit (b ++ '.' :: a) = some (b, a) := by
  induction b with
  | nil => simp [lastDotSplit, lds_of_not_mem h]
  | cons c b' ih => simp [lastDotSplit, ih]

lemma ext_some_suffix {name : List Char} (h : extensionOf name = some ['l', 'o', 'g']) :
    ['.', 'l', 'o', 'g'].isSuffixOf name := by
  unfold extensionOf at h
  cases h' : lastDotSplit name with
  | none => simp only [h'] at h; exact absurd h (by simp)
  | some p =>
    obtain ⟨b, a⟩ := p
    simp only [h'] at h
    by_cases hb : b = []
    · rw [if_pos hb] at h; exact absurd h (by simp)
    · rw [if_neg hb] at h
      have ha : a = ['l', 'o', 'g'] := Option.some_inj.mp h
      obtain ⟨h1, _⟩ := lds_structure h'
      rw [ha] at h1
      exact List.isSuffixOf_iff_suffix.mpr ⟨b, h1.symm⟩

lemma suffix_not_ext {name : List Char}
    (hs : ['.', 'l', 'o', 'g'].isSuffixOf name)
    (hx : ¬ extensionOf name = some ['l', 'o', 'g']) :
    name = ['.', 'l', 'o', 'g'] := by
  obtain ⟨t, ht⟩ := List.isSuffixOf_iff_suffix.mp hs
  have hd : ('.' : Char) ∉ ['l', 'o', 'g'] := by decide
  have hlds : lastDotSplit name = some (t, ['l', 'o', 'g']) := by
    rw [← ht]; exact lds_app t hd
  by_cases hte : t = []
  · subst hte; exact ht.symm
  · exact absurd (by simp [extensionOf, hlds, hte]) hx

lemma c7_filter_eq (l : List (String × Bool)) :
    ((l.filter (fun e => e.2 &&
        (extensionOf e.1.data == some ['l', 'o', 'g']))).filterMap
      (fun e => parseU64 (trimLog e.1.data))) =
    ((l.filter (fun e => e.2 &&
        (['.', 'l', 'o', 'g'].isSuffixOf e.1.data))).filterMap
      (fun e => parseU64 (trimLog e.1.data))) := by
  induction l with
  | nil => rfl
  | cons e rest ih =>
    rw [List.filter_cons, List.filter_cons]
    by_cases hb : e.2 = true
    · by_cases hx : extensionOf e.1.data = some ['l', 'o', 'g']
      · have hsuf : ['.', 'l', 'o', 'g'].isSuffixOf e.1.data = true := ext_some_suffix hx
        simp only [hb, hx, hsuf, Bool.true_and, beq_self_eq_true, if_pos]
        rw [List.filterMap_cons, List.filterMap_cons]
        cases hp : parseU64 (trimLog e.1.data) <;> simp [ih]
      · by_cases hs : ['.', 'l', 'o', 'g'].isSuffixOf e.1.data = true
        · have hname : e.1.data = ['.', 'l', 'o', 'g'] := suffix_not_ext hs hx
          have hnone : parseU64 (trimLog e.1.data) = none := by
            rw [hname]; decide
          simp only [hb, hs, Bool.true_and, if_pos, beq_eq_false_iff_ne, ne_eq, hx,
            not_false_eq_true, if_neg, Bool.and_false]
          rw [List.filterMap_cons, hnone]
          simp only [beq_iff_eq, hx, if_false, Bool.and_false]
          exact ih
        · simp only [hb, Bool.true_and]
          have hx' : (extensionOf e.1.data == some ['l', 'o', 'g']) = false := by
            simp [hx]
          have hs' : (['.', 'l', 'o', 'g'].isSuffixOf e.1.data) = false := by
            simp only [Bool.not_eq_true] at hs; exact hs
          rw [hx', hs']
          simp only [if_neg (by simp : ¬ (false = true))]
          exact ih
    · have hb' : e.2 = false := by simp at hb; exact hb
      simp only [hb', Bool.false_and, if_neg (by simp : ¬ (false = true))]
      exact ih

lemma generate_id_eq_amended (entries : List (String × Bool)) :
    KvStore.generate_id entries = generate_id_amendedC7 entries := by
  unfold KvStore.generate_id generate_id_amendedC7
  rw [c7_filter_eq]

/-! ## The CLI `get` branch of `main` (src/kv/src/bin/kvs.rs) -/

/-- What one CLI invocation shows: the lines printed to stdout, the process
exit code, and whether a diagnostic reaches stderr. -/
structure CliOut where
  stdout : List String
  exit : Nat
  stderrDiag : Bool
deriving DecidableEq, Repr

/-- The `get <KEY>` branch of `main`, as a function of the `open` result and
the key.  `Ok(Some(value))` prints the value and `main` returns `Ok(())`
(exit 0); `Ok(None)` and `Err(_)` share one match arm that prints
`Key not found` and also falls through to `Ok(())` (exit 0); a failing
`open` propagates through `?` out of `main`, which exits 1 and debug-prints
the error on stderr; a panic aborts the process (exit code 101). -/
def cliGet (openRes : OpResult KvStore) (key : String) : CliOut :=
  match openRes with
  | OpResult.ok store =>
    match store.get key with
    | OpResult.ok (some value, _) => ⟨[value], 0, false⟩
    | OpResult.ok (none, _) => ⟨["Key not found"], 0, false⟩
    | OpResult.err _ => ⟨["Key not found"], 0, false⟩
    | OpResult.panic => ⟨[], 101, true⟩
  | OpResult.err _ => ⟨[], 1, true⟩
  | OpResult.panic => ⟨[], 101, true⟩

/-- A store whose `get "a"` fails with a `Serde` error: the index entry
points at four bytes that do not decode as a command record. -/
def badStore8 : KvStore :=
  { current_id := 1
    index := [("a", ⟨1, 0, 4⟩)]
    readers := [(1, 0)]
    curren_writer := 4
    uncompacted := 0
    files := [(1, "junk".data)] }

example : KvStore.get badStore8 "a" = OpResult.err KvError.Serde := by decide
example : cliGet (OpResult.ok badStore8) "a" = ⟨["Key not found"], 0, false⟩ := by decide

/-! ## Concrete runs used to witness the claims -/

/-- Extract the store of a successful result, with a fallback. -/
def getOk (r : OpResult KvStore) (d : KvStore) : KvStore :=
  match r with
  | OpResult.ok s => s
  | _ => d

/-- The store produced by `open` on an empty directory. -/
def wStore0 : KvStore :=
  { current_id := 1, index := [], readers := [(1, 0)],
    curren_writer := 0, uncompacted := 0, files := [(1, [])] }

def wStore1 : KvStore := getOk (wStore0.set "a" "1") wStore0

def wStore2 : KvStore := getOk (runOps wStore1 [Op.set "b" "2"]) wStore0

def wStore3 : KvStore := getOk wStore1.compact wStore0

def wStore6 : KvStore := getOk (openKv [(5, []), (2, [])]) wStore0

def wStore10 : KvStore := getOk (wStore0.set "k\"" "v\\") wStore0

/-- The store `get "a"` hands back on `wStore1` (one reader advanced). -/
def wStore1Get : KvStore :=
  match wStore1.get "a" with
  | OpResult.ok (_, t) => t
  | _ => wStore0

lemma wStore0_reachable : Reachable wStore0 :=
  Reachable.openStep [] wStore0 ⟨List.nodup_nil, by simp⟩ (by decide)

lemma wStore1_reachable : Reachable wStore1 :=
  Reachable.opStep wStore0 (Op.set "a" "1") wStore1 wStore0_reachable (by decide)

lemma wStore2_reachable : Reachable wStore2 :=
  Reachable.opStep wStore1 (Op.set "b" "2") wStore2 wStore1_reachable (by decide)

/-- `open` picks `current_id` one past the largest recovered id (`0` when
the directory holds no segment), for every directory on which it
succeeds. -/
lemma openKv_current_id (dir : List (Nat × List Char)) (s0 : KvStore)
    (h : openKv dir = OpResult.ok s0) :
    s0.current_id = (dir.map Prod.fst).foldr max 0 + 1 := by
  simp only [openKv] at h
  cases hf : openFold dir ((dir.map Prod.fst).insertionSort (· ≤ ·)) [] [] 0 with
  | ok triple =>
    rw [hf] at h
    injection h with h
    subst h
    dsimp only
    rw [← sorted_foldr_max _ (List.sorted_insertionSort _ _)]
    exact congrArg (· + 1)
      ((List.perm_insertionSort (· ≤ ·) (dir.map Prod.fst)).foldr_eq 0)
  | err e => rw [hf] at h; cases h
  | panic => rw [hf] at h; cases h

/-! ## The claims -/

/-- C1: from any reachable engine state, immediately after a successful
`set k v` -- and still after any further successful operations none of which
is a `set` or `remove` on `k` -- `get k` succeeds and returns `some v`. -/
theorem claim_C1 (s s1 s2 : KvStore) (k v : String) (ops : List Op)
    (hr : Reachable s) (hset : s.set k v = OpResult.ok s1)
    (hops : ∀ op ∈ ops, kills op k = false)
    (hrun : runOps s1 ops = OpResult.ok s2) :
    ∃ t, s2.get k = OpResult.ok (some v, t) := by
  have hI := reachable_inv hr
  obtain ⟨s1', hok, hI1, hgv, _⟩ := set_spec hI k v
  rw [hok] at hset
  injection hset with hset
  subst hset
  obtain ⟨hI2, hpres⟩ := runOps_spec hI1 ops s2 hrun
  obtain ⟨t, hget, _, _⟩ := get_spec hI2 k
  refine ⟨t, ?_⟩
  rw [hget, hpres k hops, hgv]

theorem claim_C1_witness :
    ∃ t, KvStore.get wStore2 "a" = OpResult.ok (some "1", t) :=
  claim_C1 wStore0 wStore1 wStore2 "a" "1" [Op.set "b" "2"]
    wStore0_reachable (by decide) (by decide) (by decide)

/-- C2: reopening the directory of any reachable engine state succeeds and
yields a store whose index agrees with the live index on every key and
whose `get` returns the same value (present or absent) for every key. -/
theorem claim_C2 (s : KvStore) (hr : Reachable s) :
    ∃ s2, openKv s.files = OpResult.ok s2 ∧
      (∀ k, alGet k s2.index = alGet k s.index) ∧
      (∀ k, ∃ t t2, s.get k = OpResult.ok (getVal s k, t) ∧
        s2.get k = OpResult.ok (getVal s k, t2)) := by
  have hI := reachable_inv hr
  obtain ⟨s2, hok, hI2, hidx, hgv⟩ := reopen_spec hI
  refine ⟨s2, hok, hidx, ?_⟩
  intro k
  obtain ⟨t, hget, _, _⟩ := get_spec hI k
  obtain ⟨t2, hget2, _, _⟩ := get_spec hI2 k
  exact ⟨t, t2, hget, by rw [hget2, hgv]⟩

theorem claim_C2_witness :
    ∃ s2, openKv wStore1.files = OpResult.ok s2 ∧
      (∀ k, alGet k s2.index = alGet k wStore1.index) ∧
      (∀ k, ∃ t t2, wStore1.get k = OpResult.ok (getVal wStore1 k, t) ∧
        s2.get k = OpResult.ok (getVal wStore1 k, t2)) :=
  claim_C2 wStore1 wStore1_reachable

/-- C3: after a successful `compact` from a reachable state, every index
entry points into the compaction segment `current_id + 1` at a slice that is
the encoding of a `Set` record carrying the value the key had before
compaction, `get` is unchanged for every key, every segment with id below
the compaction id is gone from both the files and the readers, and
`uncompacted` is `0`. -/
theorem claim_C3 (s s1 : KvStore) (hr : Reachable s)
    (hc : s.compact = OpResult.ok s1) :
    (∀ k cp, alGet k s1.index = some cp →
      cp.file_id = s.current_id + 1 ∧
      ∃ content v, alGet cp.file_id s1.files = some content ∧
        (content.drop cp.pos).take cp.len = encodeCommand (Command.Set k v) ∧
        getVal s k = some v) ∧
    (∀ k, getVal s1 k = getVal s k) ∧
    (∀ id, id < s.current_id + 1 →
      alGet id s1.files = none ∧ alGet id s1.readers = none) ∧
    s1.uncompacted = 0 := by
  have hI := reachable_inv hr
  obtain ⟨s1', hok, hI1, hgv, hcid, hfid, hdel, hunc, _⟩ := compact_spec hI
  rw [hok] at hc
  injection hc with hc
  subst hc
  refine ⟨?_, hgv, hdel, hunc⟩
  intro k cp hcp
  refine ⟨hfid k cp hcp, ?_⟩
  obtain ⟨content, v, hfile, hbound, hslice⟩ := hI1.canon k cp hcp
  refine ⟨content, v, hfile, hslice, ?_⟩
  rw [← hgv k]
  exact getVal_eq_of_slice _ k cp content v hcp hfile hslice

theorem claim_C3_witness : wStore3.uncompacted = 0 :=
  (claim_C3 wStore1 wStore3 wStore1_reachable (by decide)).2.2.2

/-- C4: in every reachable engine state, every index entry
`(segment_id, offset, length)` is such that the `length` bytes at `offset`
of segment `segment_id` decode into exactly one `Set` command (no bytes left
over) whose key is the index key. -/
theorem claim_C4 (s : KvStore) (hr : Reachable s) (k : String)
    (cp : CommandPos) (h : alGet k s.index = some cp) :
    ∃ content v, alGet cp.file_id s.files = some content ∧
      cp.pos + cp.len ≤ content.length ∧
      decodeCommand ((content.drop cp.pos).take cp.len) =
        some (Command.Set k v, []) := by
  have hI := reachable_inv hr
  obtain ⟨content, v, hfile, hbound, hslice⟩ := hI.canon k cp h
  refine ⟨content, v, hfile, hbound, ?_⟩
  rw [hslice]
  exact decodeCommand_encode_nil _

def wCp4 : CommandPos := ⟨1, 0, (encodeCommand (Command.Set "a" "1")).length⟩

theorem claim_C4_witness :
    ∃ content v, alGet wCp4.file_id wStore1.files = some content ∧
      wCp4.pos + wCp4.len ≤ content.length ∧
      decodeCommand ((content.drop wCp4.pos).take wCp4.len) =
        some (Command.Set "a" v, []) :=
  claim_C4 wStore1 wStore1_reachable "a" wCp4 (by decide)

/-- C5: `remove` on a key absent from the index fails with `KeyNotFound`;
the check comes first, so the operation returns before anything -- log,
index, `uncompacted`, `current_id` or readers -- is touched (the model's
error result carries no successor state). -/
theorem claim_C5 (s : KvStore) (k : String) (h : alGet k s.index = none) :
    s.remove k = OpResult.err KvError.KeyNotFound :=
  remove_absent s k h

theorem claim_C5_witness :
    KvStore.remove wStore0 "z" = OpResult.err KvError.KeyNotFound :=
  claim_C5 wStore0 "z" (by decide)

/-- C6: segment ids never move backwards: `open` chooses `current_id` one
past the largest existing id (`0` when there is none), and a successful
`compact` from a reachable state reserves `compaction_id = current_id + 1`
and new active id `current_id + 2`, both strictly greater than every id
present in `readers` before the compaction. -/
theorem claim_C6 :
    (∀ dir s0, openKv dir = OpResult.ok s0 →
      s0.current_id = (dir.map Prod.fst).foldr max 0 + 1) ∧
    (∀ s : KvStore, Reachable s → ∀ s1, s.compact = OpResult.ok s1 →
      s1.current_id = s.current_id + 2 ∧
      ∀ id, (alGet id s.readers).isSome →
        id < s.current_id + 1 ∧ id < s.current_id + 2) := by
  refine ⟨openKv_current_id, ?_⟩
  intro s hr s1 hc
  have hI := reachable_inv hr
  obtain ⟨s1', hok, _, _, hcid, _, _, _, _⟩ := compact_spec hI
  rw [hok] at hc
  injection hc with hc
  subst hc
  refine ⟨hcid, ?_⟩
  intro id hrd
  have hle : id ≤ s.current_id := hI.ids_le id ((hI.rf id).mp hrd)
  omega

theorem claim_C6_witness :
    wStore6.current_id =
      (([(5, ([] : List Char)), (2, [])]).map Prod.fst).foldr max 0 + 1 ∧
    wStore3.current_id = wStore1.current_id + 2 :=
  ⟨claim_C6.1 [(5, []), (2, [])] wStore6 (by decide),
   (claim_C6.2 wStore1 wStore1_reachable wStore3 (by decide)).1⟩

/-- C9: in every reachable engine state the `file_id` of every index entry
is a key of the readers map, so the `expect` lookups cannot fire: `get`
never panics and `compact` never panics (it in fact succeeds). -/
theorem claim_C9 (s : KvStore) (hr : Reachable s) :
    (∀ k cp, alGet k s.index = some cp →
      (alGet cp.file_id s.readers).isSome) ∧
    (∀ k, s.get k ≠ OpResult.panic) ∧
    s.compact ≠ OpResult.panic := by
  have hI := reachable_inv hr
  refine ⟨?_, ?_, ?_⟩
  · intro k cp hcp
    obtain ⟨content, v, hfile, _, _⟩ := hI.canon k cp hcp
    rw [hI.rf, hfile]
    rfl
  · intro k
    obtain ⟨t, hget, _, _⟩ := get_spec hI k
    rw [hget]
    intro hcon
    cases hcon
  · obtain ⟨s1, hok, _⟩ := compact_spec hI
    rw [hok]
    intro hcon
    cases hcon

theorem claim_C9_witness :
    (∀ k cp, alGet k wStore2.index = some cp →
      (alGet cp.file_id wStore2.readers).isSome) ∧
    (∀ k, wStore2.get k ≠ OpResult.panic) ∧
    wStore2.compact ≠ OpResult.panic :=
  claim_C9 wStore2 wStore2_reachable

/-- C10: encoding any `Set` or `Remove` command and decoding the bytes gives
back the command with nothing left over, for arbitrary key and value strings
(escaping included); consequently from any reachable state a successful
`set k v` is observable: `get k` succeeds with `some v`. -/
theorem claim_C10 :
    (∀ c : Command, decodeCommand (encodeCommand c) = some (c, [])) ∧
    (∀ (s s1 : KvStore) (k v : String), Reachable s →
      s.set k v = OpResult.ok s1 →
      ∃ t, s1.get k = OpResult.ok (some v, t)) := by
  refine ⟨decodeCommand_encode_nil, ?_⟩
  intro s s1 k v hr hset
  have hI := reachable_inv hr
  obtain ⟨s1', hok, hI1, hgv, _⟩ := set_spec hI k v
  rw [hok] at hset
  injection hset with hset
  subst hset
  obtain ⟨t, hget, _, _⟩ := get_spec hI1 k
  refine ⟨t, ?_⟩
  rw [hget, hgv]

theorem claim_C10_witness :
    decodeCommand (encodeCommand (Command.Set "a\"b\n" "c\\d\t")) =
      some (Command.Set "a\"b\n" "c\\d\t", []) ∧
    (∃ t, wStore10.get "k\"" = OpResult.ok (some "v\\", t)) :=
  ⟨claim_C10.1 (Command.Set "a\"b\n" "c\\d\t"),
   claim_C10.2 wStore0 wStore10 "k\"" "v\\" wStore0_reachable (by decide)⟩

/-- C7, corrected.  As stated the claim is false: `trim_end_matches(".log")`
removes every trailing `.log`, so `3.log.log` contributes id `3` (see
`claim_C7_counterexample`).  Amended claim: `open` collects as segment ids
exactly the regular files whose name ends in `.log` and whose name with ALL
trailing `.log` occurrences removed parses as an unsigned decimal integer,
sorted ascending. -/
theorem claim_C7 (entries : List (String × Bool)) :
    KvStore.generate_id entries = generate_id_amendedC7 entries :=
  generate_id_eq_amended entries

/-- C7's counterexample: the code assigns the file `3.log.log` the id `3`,
while the claim (stem = name with the final `.log` removed, which is
`3.log`, not an integer) says it contributes none. -/
theorem claim_C7_counterexample :
    KvStore.generate_id [("3.log.log", true)] = [3] ∧
    generate_id_claimC7 [("3.log.log", true)] = [] ∧
    KvStore.generate_id [("3.log.log", true)] ≠
      generate_id_claimC7 [("3.log.log", true)] :=
  ⟨by decide, by decide, by decide⟩

/-- C8, corrected.  As stated the claim is false: the CLI matches `Ok(None)`
and `Err(_)` in one arm, so a failing `get` also prints `Key not found` and
exits 0 (see `claim_C8_counterexample`).  Amended claim: a present value is
printed and the process exits 0; an absent key or ANY `get` error prints
`Key not found` and exits 0; only an `open` failure exits non-zero (1) with
a diagnostic on stderr. -/
theorem claim_C8 :
    (∀ st k v t, KvStore.get st k = OpResult.ok (some v, t) →
      cliGet (OpResult.ok st) k = ⟨[v], 0, false⟩) ∧
    (∀ st k t, KvStore.get st k = OpResult.ok (none, t) →
      cliGet (OpResult.ok st) k = ⟨["Key not found"], 0, false⟩) ∧
    (∀ st k e, KvStore.get st k = OpResult.err e →
      cliGet (OpResult.ok st) k = ⟨["Key not found"], 0, false⟩) ∧
    (∀ e k, cliGet (OpResult.err e) k = ⟨[], 1, true⟩) := by
  refine ⟨?_, ?_, ?_, fun e k => rfl⟩
  · intro st k v t h
    simp only [cliGet, h]
  · intro st k t h
    simp only [cliGet, h]
  · intro st k e h
    simp only [cliGet, h]

/-- C8's counterexample: on `badStore8` the engine's `get` fails with a
`Serde` error, yet the CLI prints `Key not found` on stdout and exits 0 --
not non-zero as the claim states. -/
theorem claim_C8_counterexample :
    KvStore.get badStore8 "a" = OpResult.err KvError.Serde ∧
    cliGet (OpResult.ok badStore8) "a" = ⟨["Key not found"], 0, false⟩ :=
  ⟨by decide, by decide⟩

theorem claim_C8_witness :
    cliGet (OpResult.ok wStore1) "a" = ⟨["1"], 0, false⟩ ∧
    cliGet (OpResult.ok wStore1) "z" = ⟨["Key not found"], 0, false⟩ ∧
    cliGet (OpResult.err KvError.Io) "a" = ⟨[], 1, true⟩ :=
  ⟨claim_C8.1 wStore1 "a" "1" wStore1Get (by decide),
   claim_C8.2.1 wStore1 "z" wStore1 (by decide),
   claim_C8.2.2.2 KvError.Io "a"⟩
